import Mathlib

/- Verification of the context-free-grammar normalization pipeline
   (Lab5/main.py): a shallow embedding of the `Grammar` class and its five
   stages, with theorems about the stage postconditions and semantics.

   Python sets are modelled as duplicate-free lists (membership is what
   matters; iteration order is fixed arbitrarily, as Python leaves it
   unspecified), dicts as association lists in insertion order, and the
   unbounded `while` fixpoint loops as fuelled iteration with provably
   sufficient fuel. -/

abbrev Symb := String

abbrev Rule := List Symb

abbrev Prods := List (Symb × List Rule)

/-- `productions.get(nt, [])` on the association-list model of the dict. -/
def lookupRules : Prods → Symb → List Rule
  | [], _ => []
  | p :: rest, nt => if p.1 = nt then p.2 else lookupRules rest nt

/-- `nt in productions` on the association-list model of the dict. -/
def hasKey : Prods → Symb → Bool
  | [], _ => false
  | p :: rest, k => if p.1 = k then true else hasKey rest k

/-- Python `set.add` on the list model of a set. -/
def insertS (x : Symb) (l : List Symb) : List Symb :=
  if x ∈ l then l else x :: l

/-- Adding an element to a set of rules (`set.add` for rule tuples). -/
def addIfAbsent {α : Type} [DecidableEq α] (l : List α) (x : α) : List α :=
  if x ∈ l then l else l ++ [x]

/-- `d.setdefault(k, []).extend(rs)` on the association-list model: append
`rs` to the list held at key `k`, creating the key (at the end) if absent. -/
def extendKey (m : Prods) (k : Symb) (rs : List Rule) : Prods :=
  match m with
  | [] => [(k, rs)]
  | p :: rest => if p.1 = k then (p.1, p.2 ++ rs) :: rest else p :: extendKey rest k rs

/-- The `Grammar` class of Lab5/main.py: non-terminals VN, terminals VT,
productions dict, start symbol. -/
structure Grammar where
  non_terminals : List Symb
  terminals : List Symb
  productions : Prods
  start_symbol : Symb
deriving DecidableEq

/-- `Grammar.__init__` — it only stores its four arguments (the code
performs no validation). -/
def Grammar.init (vn vt : List Symb) (ps : Prods) (st : Symb) : Grammar :=
  ⟨vn, vt, ps, st⟩

/-- A `while changed:` fixpoint loop: repeat `step` until it makes no
change, giving up (already stable in all our uses) when fuel runs out. -/
def iterFix (step : List Symb → List Symb) : Nat → List Symb → List Symb
  | 0, s => s
  | n + 1, s => if step s = s then s else iterFix step n (step s)

/-- One full pass of the nullable-set loop of
`eliminate_epsilon_productions`: a non-terminal becomes nullable if some
rule is `["ε"]` or has every symbol already nullable (the set grows during
the pass, as in the Python loop). -/
def nullablePass (ps : Prods) (nu : List Symb) : List Symb :=
  ps.foldl (fun nu p =>
    if p.1 ∈ nu then nu
    else if ∃ r ∈ p.2, r = ["ε"] ∨ ∀ s ∈ r, s ∈ nu then p.1 :: nu
    else nu) nu

/-- The nullable set computed by `eliminate_epsilon_productions`. -/
def nullableSet (g : Grammar) : List Symb :=
  iterFix (nullablePass g.productions) (g.productions.length + 1) []

/-- The recursive `helper(index, current)` of `_generate_alternatives`:
branch on omitting each nullable symbol (omission branch first), always
include the symbol; leaves are the raw alternatives in generation order. -/
def genAltsAux (nullable : List Symb) : Rule → Rule → List Rule
  | [], current => [current]
  | s :: rest, current =>
      (if s ∈ nullable then genAltsAux nullable rest current else []) ++
        genAltsAux nullable rest (current ++ [s])

/-- `_generate_alternatives`: the set of alternatives (the Python function
returns a `set`, modelled as the deduplicated list of raw leaves). -/
def generate_alternatives (nullable : List Symb) (rule : Rule) : List Rule :=
  (genAltsAux nullable rule []).dedup

/-- The new rule set built for one non-terminal by
`eliminate_epsilon_productions`: skip `["ε"]` rules, add every generated
alternative, replacing an empty alternative by `["ε"]` for the start
symbol and discarding it elsewhere. -/
def epsNewRules (start : Symb) (nullable : List Symb) (nt : Symb) (rules : List Rule) : List Rule :=
  rules.foldl (fun acc rule =>
    if rule = ["ε"] then acc
    else (generate_alternatives nullable rule).foldl (fun acc2 alt =>
      if alt = [] then (if nt = start then addIfAbsent acc2 ["ε"] else acc2)
      else addIfAbsent acc2 alt) acc) []

/-- Stage 1, `eliminate_epsilon_productions`. -/
def eliminate_epsilon_productions (g : Grammar) : Grammar :=
  { g with productions :=
      g.productions.map (fun p => (p.1, epsNewRules g.start_symbol (nullableSet g) p.1 p.2)) }

/-- One pass of the per-non-terminal unit-pair loop of
`eliminate_unit_productions`: for each member `A` of the snapshot of the
set, add `rule[0]` of every unit rule of `A` (checking the growing set). -/
def unitPass (g : Grammar) (s : List Symb) : List Symb :=
  s.foldl (fun acc A =>
    (lookupRules g.productions A).foldl (fun acc2 rule =>
      match rule with
      | [b] => if b ∈ g.non_terminals ∧ b ∉ acc2 then b :: acc2 else acc2
      | _ => acc2) acc) s

/-- `unit_pairs[nt]` as computed by `eliminate_unit_productions`. -/
def unitPairs (g : Grammar) (nt : Symb) : List Symb :=
  iterFix (unitPass g) (g.non_terminals.length + 2) [nt]

/-- A unit production: RHS of length one holding a non-terminal. -/
def isUnitRule (g : Grammar) : Rule → Prop
  | [b] => b ∈ g.non_terminals
  | _ => False

instance (g : Grammar) : (r : Rule) → Decidable (isUnitRule g r)
  | [b] => inferInstanceAs (Decidable (b ∈ g.non_terminals))
  | [] => isFalse (fun h => h)
  | _ :: _ :: _ => isFalse (fun h => h)

/-- The new rule set for one non-terminal in `eliminate_unit_productions`:
all rules of all unit-pair members, skipping `["ε"]` and unit rules. -/
def unitNewRules (g : Grammar) (nt : Symb) : List Rule :=
  (unitPairs g nt).foldl (fun acc B =>
    (lookupRules g.productions B).foldl (fun acc2 rule =>
      if rule = ["ε"] then acc2
      else if isUnitRule g rule then acc2
      else addIfAbsent acc2 rule) acc) []

/-- Stage 2, `eliminate_unit_productions`. -/
def eliminate_unit_productions (g : Grammar) : Grammar :=
  { g with productions := g.non_terminals.map (fun nt => (nt, unitNewRules g nt)) }

/-- The inner worklist additions of `eliminate_inaccessible_symbols`: all
non-terminal symbols of `cur`'s rules not yet reachable. -/
def collectSucc (g : Grammar) (cur : Symb) (reach : List Symb) (work : List Symb) : List Symb :=
  (lookupRules g.productions cur).foldl (fun acc prod =>
    prod.foldl (fun acc2 s =>
      if s ∈ g.non_terminals ∧ s ∉ reach then insertS s acc2 else acc2) acc) work

/-- The `while to_process:` loop of `eliminate_inaccessible_symbols`. -/
def reachLoop (g : Grammar) : Nat → List Symb → List Symb → List Symb
  | 0, _, reach => reach
  | _ + 1, [], reach => reach
  | n + 1, cur :: rest, reach =>
      reachLoop g n (collectSucc g cur (insertS cur reach) rest) (insertS cur reach)

/-- All symbols occurring in rules of `ps` (as a set). -/
def symbolsInProds (ps : Prods) : List Symb :=
  ps.foldl (fun acc p => p.2.foldl (fun a r => r.foldl (fun a2 s => insertS s a2) a) acc) []

/-- Stage 3, `eliminate_inaccessible_symbols`. -/
def eliminate_inaccessible_symbols (g : Grammar) : Grammar :=
  let reach := reachLoop g (g.non_terminals.length + 2) [g.start_symbol] []
  let newProds := reach.filterMap (fun nt =>
    if hasKey g.productions nt then some (nt, lookupRules g.productions nt) else none)
  { non_terminals := g.non_terminals.filter (fun nt => decide (nt ∈ reach)),
    terminals := (symbolsInProds newProds).filter (fun s => decide (s ∈ g.terminals)),
    productions := newProds,
    start_symbol := g.start_symbol }

/-- One pass of the productive-set loop of
`eliminate_non_productive_symbols`. -/
def productivePass (g : Grammar) (pr : List Symb) : List Symb :=
  g.productions.foldl (fun pr p =>
    if p.1 ∈ pr then pr
    else if ∃ r ∈ p.2, ∀ s ∈ r, s ∈ g.terminals ∨ s ∈ pr ∨ s = "ε" then p.1 :: pr
    else pr) pr

/-- The productive set computed by `eliminate_non_productive_symbols`. -/
def productiveSet (g : Grammar) : List Symb :=
  iterFix (productivePass g) (g.productions.length + 1) []

/-- Stage 4, `eliminate_non_productive_symbols`. -/
def eliminate_non_productive_symbols (g : Grammar) : Grammar :=
  let pr := productiveSet g
  let newProds := g.productions.filterMap (fun p =>
    if p.1 ∈ pr then
      let valid := p.2.filter (fun r => decide (∀ s ∈ r, s ∈ g.terminals ∨ s ∈ pr ∨ s = "ε"))
      if valid.isEmpty then none else some (p.1, valid)
    else none)
  { non_terminals := g.non_terminals.filter (fun nt => decide (nt ∈ pr)),
    terminals := (symbolsInProds newProds).filter (fun s => decide (s ∈ g.terminals)),
    productions := newProds,
    start_symbol := g.start_symbol }

/-- The `while new_nt in self.non_terminals: new_nt += "_"` collision loop
of `convert_to_cnf`, with fuel (one more than the set size always
suffices, since the candidates are pairwise distinct). -/
def underscoreFresh : Nat → Symb → List Symb → Symb
  | 0, cand, _ => cand
  | n + 1, cand, nts => if cand ∈ nts then underscoreFresh n (cand ++ "_") nts else cand

/-- State threaded through Part A of `convert_to_cnf`: `terminal_mapping`,
the new production dict, and the (growing) non-terminal set. -/
structure StA where
  tmap : List (Symb × Symb)
  np : Prods
  nts : List Symb
deriving DecidableEq

/-- `terminal_mapping` lookup. -/
def lookupTM : List (Symb × Symb) → Symb → Option Symb
  | [], _ => none
  | p :: rest, s => if p.1 = s then some p.2 else lookupTM rest s

/-- Part A of `convert_to_cnf`, one symbol of a long rule: a terminal is
replaced by its (possibly freshly created) `T_` non-terminal. -/
def partASym (terms : List Symb) (st : StA × Rule) (s : Symb) : StA × Rule :=
  if s ∈ terms then
    match lookupTM st.1.tmap s with
    | some nn => (st.1, st.2 ++ [nn])
    | none =>
        let nn := underscoreFresh (st.1.nts.length + 1) ("T_" ++ s) st.1.nts
        (⟨(s, nn) :: st.1.tmap, extendKey st.1.np nn [[s]], insertS nn st.1.nts⟩,
          st.2 ++ [nn])
  else (st.1, st.2 ++ [s])

/-- Part A of `convert_to_cnf`, one rule: rules of length ≥ 2 have their
terminals replaced, shorter rules pass through unchanged. -/
def partARule (terms : List Symb) (st : StA × List Rule) (r : Rule) : StA × List Rule :=
  if 2 ≤ r.length then
    let res := r.foldl (partASym terms) (st.1, [])
    (res.1, st.2 ++ [res.2])
  else (st.1, st.2 ++ [r])

/-- Part A of `convert_to_cnf`, one dict entry: convert all its rules and
extend the new dict at its key. -/
def partAEntry (terms : List Symb) (a : StA) (p : Symb × List Rule) : StA :=
  let res := p.2.foldl (partARule terms) (a, [])
  { res.1 with np := extendKey res.1.np p.1 res.2 }

/-- Part A of `convert_to_cnf` over the whole production dict. -/
def partA (g : Grammar) : StA :=
  g.productions.foldl (partAEntry g.terminals) ⟨[], [], g.non_terminals⟩

/-- The `while len(temp_rule) > 2:` chain loop of Part B of
`convert_to_cnf`, threading (cnf dict, non-terminal set, counter). -/
def binChain : Symb → Rule → Prods × List Symb × Nat → Prods × List Symb × Nat
  | cur, a :: b :: c :: rest, (cnf, nts, count) =>
      let nn := "X" ++ toString (count + 1)
      binChain nn (b :: c :: rest) (extendKey cnf cur [[a, nn]], insertS nn nts, count + 1)
  | cur, temp, (cnf, nts, count) => (extendKey cnf cur [temp], nts, count)

/-- Part B of `convert_to_cnf`, one rule: rules of length ≤ 2 are kept;
longer rules are broken into a fresh right-linear chain. -/
def partBRule (st : Prods × List Symb × Nat) (nt : Symb) (r : Rule) : Prods × List Symb × Nat :=
  if r.length ≤ 2 then (extendKey st.1 nt [r], st.2.1, st.2.2)
  else match r with
    | x :: tail =>
        let nn := "X" ++ toString (st.2.2 + 1)
        binChain nn tail (extendKey st.1 nt [[x, nn]], insertS nn st.2.1, st.2.2 + 1)
    | [] => (extendKey st.1 nt [r], st.2.1, st.2.2)

/-- Part B of `convert_to_cnf` over the whole dict. -/
def partB (ps : Prods) (nts0 : List Symb) : Prods × List Symb × Nat :=
  ps.foldl (fun st p => p.2.foldl (fun st2 r => partBRule st2 p.1 r) st) ([], nts0, 0)

/-- Stage 5, `convert_to_cnf`. -/
def convert_to_cnf (g : Grammar) : Grammar :=
  let a := partA g
  let res := partB a.np a.nts
  { non_terminals := res.2.1, terminals := g.terminals,
    productions := res.1, start_symbol := g.start_symbol }

/-- The full pipeline of `main()`: the five stages in order. -/
def fullPipeline (g : Grammar) : Grammar :=
  convert_to_cnf
    (eliminate_non_productive_symbols
      (eliminate_inaccessible_symbols
        (eliminate_unit_productions
          (eliminate_epsilon_productions g))))

/- Derivability: a sentential form (list of symbols) derives a terminal
word.  A terminal stands for itself, the ε-marker for the empty string,
and a non-terminal for any word derivable from one of its rules. -/
inductive SDer (g : Grammar) : List Symb → List Symb → Prop where
  | nil : SDer g [] []
  | term : ∀ {s rest w}, s ∈ g.terminals → SDer g rest w → SDer g (s :: rest) (s :: w)
  | eps : ∀ {rest w}, SDer g rest w → SDer g ("ε" :: rest) w
  | expand : ∀ {s rule rest w1 w2}, s ∈ g.non_terminals →
      rule ∈ lookupRules g.productions s →
      SDer g rule w1 → SDer g rest w2 → SDer g (s :: rest) (w1 ++ w2)

/-- unit-pairs(A) as specified: the smallest set containing A and closed
under following unit productions. -/
inductive UnitPair (g : Grammar) : Symb → Symb → Prop where
  | refl : ∀ A, UnitPair g A A
  | step : ∀ {A B C}, UnitPair g A B → [C] ∈ lookupRules g.productions B →
      C ∈ g.non_terminals → UnitPair g A C

/-- The validation errors named by the specification. -/
inductive GrammarError where
  | InvalidStartSymbol : GrammarError
  | UndefinedSymbol : GrammarError
  | MalformedEpsilonProduction : GrammarError
deriving DecidableEq

/-- Modelled from the spec: the construction-time validation that the
specification describes for `Grammar.__init__` (`InvalidStartSymbol` if
start ∉ VN, `UndefinedSymbol` if a RHS symbol is outside VN ∪ VT ∪ {ε},
`MalformedEpsilonProduction` if ε co-occurs with other symbols); the
source constructor contains no such checks, so this definition exists only
to state the claim being compared against the code. -/
def specValidate (vn vt : List Symb) (ps : Prods) (st : Symb) : Except GrammarError Grammar :=
  if st ∉ vn then .error .InvalidStartSymbol
  else if ∃ p ∈ ps, ∃ r ∈ p.2, ∃ s ∈ r, ¬(s ∈ vn ∨ s ∈ vt ∨ s = "ε") then
    .error .UndefinedSymbol
  else if ∃ p ∈ ps, ∃ r ∈ p.2, "ε" ∈ r ∧ r ≠ ["ε"] then
    .error .MalformedEpsilonProduction
  else .ok ⟨vn, vt, ps, st⟩

/-- Concrete grammar: S → a | ε (start can derive the empty string only
through its explicit ε-production). -/
def gEps : Grammar := ⟨["S"], ["a"], [("S", [["a"], ["ε"]])], "S"⟩

/-- Concrete grammar: S → ε. -/
def gUnitEps : Grammar := ⟨["S"], ["a"], [("S", [["ε"]])], "S"⟩

/-- Concrete grammar with two productions sharing the tail B C:
S → A B C | D B C. -/
def gTails : Grammar :=
  ⟨["S", "A", "B", "C", "D"], [], [("S", [["A", "B", "C"], ["D", "B", "C"]])], "S"⟩

/-- Concrete grammar with a terminal named X1 and a long rule:
S → a a a with VT = {a, X1}. -/
def gX1 : Grammar := ⟨["S"], ["a", "X1"], [("S", [["a", "a", "a"]])], "S"⟩

/-- Small well-formed grammar used to instantiate hypotheses:
S → a A, A → b. -/
def gW : Grammar := ⟨["S", "A"], ["a", "b"], [("S", [["a", "A"]]), ("A", [["b"]])], "S"⟩

/-- The grammar of `main()` in Lab5/main.py. -/
def gMain : Grammar :=
  ⟨["S", "A", "B", "C", "D"], ["a", "b"],
   [("S", [["a", "B"], ["b", "A"], ["A"]]),
    ("A", [["B"], ["A", "S"], ["a", "B", "A", "B"], ["b"]]),
    ("B", [["b"], ["b", "S"], ["a", "D"], ["ε"]]),
    ("D", [["A", "A"]]),
    ("C", [["B", "a"]])],
   "S"⟩

/-- Shape of a rule after Part A of `convert_to_cnf`: a single terminal,
the start ε-production, or a rule of length ≥ 2 over the symbols of
`nts`. -/
def midRule (g : Grammar) (nts : List Symb) (key : Symb) (r : Rule) : Prop :=
  (∃ t ∈ g.terminals, r = [t]) ∨ (r = ["ε"] ∧ key = g.start_symbol) ∨
    (2 ≤ r.length ∧ ∀ x ∈ r, x ∈ nts)

/-- Shape of a rule in the CNF output: a single terminal, the start
ε-production, or exactly two symbols of `nts`. -/
def cnfRule (g : Grammar) (nts : List Symb) (key : Symb) (r : Rule) : Prop :=
  (∃ t ∈ g.terminals, r = [t]) ∨ (r = ["ε"] ∧ key = g.start_symbol) ∨
    (∃ u v, r = [u, v] ∧ u ∈ nts ∧ v ∈ nts)

/- ------------------------------------------------------------------ -/
/- Generic membership lemmas for the set/dict operations.             -/
/- ------------------------------------------------------------------ -/

lemma mem_addIfAbsent {α : Type} [DecidableEq α] {l : List α} {x y : α} :
    y ∈ addIfAbsent l x ↔ y ∈ l ∨ y = x := by
  unfold addIfAbsent
  by_cases h : x ∈ l <;> simp [h, List.mem_append]
  intro hy
  rw [hy]
  exact h

lemma nodup_addIfAbsent {α : Type} [DecidableEq α] {l : List α} {x : α}
    (h : l.Nodup) : (addIfAbsent l x).Nodup := by
  unfold addIfAbsent
  by_cases hx : x ∈ l
  · simpa [hx] using h
  · simp only [hx, if_false, List.nodup_append, List.disjoint_left]
    refine ⟨h, List.nodup_singleton x, fun a ha hax => ?_⟩
    rw [List.mem_singleton] at hax
    rw [hax] at ha
    exact hx ha

lemma mem_insertS {x y : Symb} {l : List Symb} :
    y ∈ insertS x l ↔ y = x ∨ y ∈ l := by
  unfold insertS
  by_cases h : x ∈ l <;> simp [h]
  intro hy
  rw [hy]
  exact h

lemma self_mem_insertS {x : Symb} {l : List Symb} : x ∈ insertS x l := by
  rw [mem_insertS]
  exact Or.inl rfl

lemma mem_insertS_of_mem {x y : Symb} {l : List Symb} (h : y ∈ l) :
    y ∈ insertS x l := by
  rw [mem_insertS]
  exact Or.inr h

/- ------------------------------------------------------------------ -/
/- C10: the first two stages only rewrite the production mapping.     -/
/- ------------------------------------------------------------------ -/

/-- C10: `eliminate_epsilon_productions` and `eliminate_unit_productions`
change only the productions mapping; non-terminals, terminals and start
symbol of the result are exactly those of the input. -/
theorem eps_unit_frame (g : Grammar) :
    (eliminate_epsilon_productions g).non_terminals = g.non_terminals ∧
    (eliminate_epsilon_productions g).terminals = g.terminals ∧
    (eliminate_epsilon_productions g).start_symbol = g.start_symbol ∧
    (eliminate_unit_productions g).non_terminals = g.non_terminals ∧
    (eliminate_unit_productions g).terminals = g.terminals ∧
    (eliminate_unit_productions g).start_symbol = g.start_symbol :=
  ⟨rfl, rfl, rfl, rfl, rfl, rfl⟩

/- ------------------------------------------------------------------ -/
/- C6: the constructor performs no validation.                        -/
/- ------------------------------------------------------------------ -/

/-- C6 counterexample: with start symbol "S" absent from VN = {"A"}, the
specified validation demands an `InvalidStartSymbol` failure, but
`Grammar.__init__` succeeds and stores the fields verbatim. -/
theorem grammar_init_no_validation_cex :
    Grammar.init ["A"] [] [] "S" = ⟨["A"], [], [], "S"⟩ ∧
      specValidate ["A"] [] [] "S" = .error .InvalidStartSymbol :=
  ⟨rfl, rfl⟩

/-- C6 amended: `Grammar.__init__` performs no validation at all — even
when the start symbol is not in VN it succeeds, storing the four
arguments verbatim; no error is surfaced at construction. -/
theorem grammar_init_stores_fields (vn vt : List Symb) (ps : Prods) (st : Symb)
    (_ : st ∉ vn) : Grammar.init vn vt ps st = ⟨vn, vt, ps, st⟩ := rfl

/-- Witness for the amended C6 at a concrete invalid input. -/
theorem grammar_init_stores_fields_witness :
    "S" ∉ (["A"] : List Symb) ∧ Grammar.init ["A"] [] [] "S" = ⟨["A"], [], [], "S"⟩ :=
  ⟨by decide, grammar_init_stores_fields ["A"] [] [] "S" (by decide)⟩

/- ------------------------------------------------------------------ -/
/- C8: the raw alternative count is 2^m.                              -/
/- ------------------------------------------------------------------ -/

lemma genAltsAux_length (nullable : List Symb) :
    ∀ (rule current : Rule),
      (genAltsAux nullable rule current).length =
        2 ^ (rule.countP (fun s => decide (s ∈ nullable))) := by
  intro rule
  induction rule with
  | nil => intro current; simp [genAltsAux]
  | cons s rest ih =>
      intro current
      by_cases h : s ∈ nullable <;>
        simp [genAltsAux, h, ih, List.countP_cons, pow_succ, Nat.mul_two]

/-- C8: for every rule, the recursive alternative generation of
`eliminate_epsilon_productions` produces exactly `2 ^ m` raw alternatives
before set-deduplication, where `m` is the number of occurrences of
nullable symbols in the rule's RHS. -/
theorem raw_alternative_count (g : Grammar) (rule : Rule) :
    (genAltsAux (nullableSet g) rule []).length =
      2 ^ (rule.countP (fun s => decide (s ∈ nullableSet g))) :=
  genAltsAux_length (nullableSet g) rule []

/- ------------------------------------------------------------------ -/
/- C7: epsilon elimination leaves ε only on the start symbol.         -/
/- ------------------------------------------------------------------ -/

lemma genAltsAux_shape (nullable : List Symb) :
    ∀ (rule current alt : Rule), alt ∈ genAltsAux nullable rule current →
      ∃ sub, alt = current ++ sub ∧ ∀ s ∈ sub, s ∈ rule := by
  intro rule
  induction rule with
  | nil =>
      intro current alt h
      simp only [genAltsAux, List.mem_singleton] at h
      exact ⟨[], by simp [h], by simp⟩
  | cons s rest ih =>
      intro current alt h
      simp only [genAltsAux, List.mem_append] at h
      rcases h with h | h
      · by_cases hs : s ∈ nullable
        · rw [if_pos hs] at h
          obtain ⟨sub, heq, hsub⟩ := ih current alt h
          exact ⟨sub, heq, fun x hx => List.mem_cons_of_mem s (hsub x hx)⟩
        · rw [if_neg hs] at h
          simp at h
      · obtain ⟨sub, heq, hsub⟩ := ih (current ++ [s]) alt h
        refine ⟨s :: sub, ?_, ?_⟩
        · rw [heq, List.append_assoc, List.singleton_append]
        · intro x hx
          rcases List.mem_cons.mp hx with rfl | hx'
          · exact List.mem_cons_self x rest
          · exact List.mem_cons_of_mem s (hsub x hx')

lemma mem_altFold (start nt : Symb) :
    ∀ (alts : List Rule) (acc : List Rule) (r : Rule),
      r ∈ alts.foldl (fun acc2 alt =>
          if alt = [] then (if nt = start then addIfAbsent acc2 ["ε"] else acc2)
          else addIfAbsent acc2 alt) acc ↔
        r ∈ acc ∨ (r ∈ alts ∧ r ≠ []) ∨ (nt = start ∧ [] ∈ alts ∧ r = ["ε"]) := by
  intro alts
  induction alts with
  | nil => intro acc r; simp
  | cons a alts ih =>
      intro acc r
      rw [List.foldl_cons, ih]
      by_cases ha : a = []
      · subst ha
        by_cases hs : nt = start <;> simp [hs, mem_addIfAbsent] <;> tauto
      · simp only [ha, if_false, mem_addIfAbsent, List.mem_cons]
        constructor
        · rintro ((h | rfl) | h | h)
          · exact Or.inl h
          · exact Or.inr (Or.inl ⟨Or.inl rfl, ha⟩)
          · exact Or.inr (Or.inl ⟨Or.inr h.1, h.2⟩)
          · exact Or.inr (Or.inr ⟨h.1, Or.inr h.2.1, h.2.2⟩)
        · rintro (h | ⟨(rfl | h), hne⟩ | ⟨hs, (h0 | h0), he⟩)
          · exact Or.inl (Or.inl h)
          · exact Or.inl (Or.inr rfl)
          · exact Or.inr (Or.inl ⟨h, hne⟩)
          · exact absurd h0.symm ha
          · exact Or.inr (Or.inr ⟨hs, h0, he⟩)

lemma mem_epsNewRulesAux (start : Symb) (nullable : List Symb) (nt : Symb) :
    ∀ (rules : List Rule) (acc : List Rule) (r : Rule),
      r ∈ rules.foldl (fun acc rule =>
          if rule = ["ε"] then acc
          else (generate_alternatives nullable rule).foldl (fun acc2 alt =>
            if alt = [] then (if nt = start then addIfAbsent acc2 ["ε"] else acc2)
            else addIfAbsent acc2 alt) acc) acc ↔
        r ∈ acc ∨ ∃ rule ∈ rules, rule ≠ ["ε"] ∧
          ((r ∈ generate_alternatives nullable rule ∧ r ≠ []) ∨
            (nt = start ∧ [] ∈ generate_alternatives nullable rule ∧ r = ["ε"])) := by
  intro rules
  induction rules with
  | nil => intro acc r; simp
  | cons rule rules ih =>
      intro acc r
      rw [List.foldl_cons, ih]
      by_cases he : rule = ["ε"]
      · simp [he]
      · rw [if_neg he, mem_altFold start nt]
        simp only [List.mem_cons, he]
        constructor
        · rintro ((h | h | h) | h)
          · exact Or.inl h
          · exact Or.inr ⟨rule, Or.inl rfl, he, Or.inl h⟩
          · exact Or.inr ⟨rule, Or.inl rfl, he, Or.inr h⟩
          · obtain ⟨ru, hru, hne, hc⟩ := h
            exact Or.inr ⟨ru, Or.inr hru, hne, hc⟩
        · rintro (h | ⟨ru, (rfl | hru), hne, hc⟩)
          · exact Or.inl (Or.inl h)
          · rcases hc with hc | hc
            · exact Or.inl (Or.inr (Or.inl hc))
            · exact Or.inl (Or.inr (Or.inr hc))
          · exact Or.inr ⟨ru, hru, hne, hc⟩

lemma mem_epsNewRules {start : Symb} {nullable : List Symb} {nt : Symb}
    {rules : List Rule} {r : Rule} :
    r ∈ epsNewRules start nullable nt rules ↔
      ∃ rule ∈ rules, rule ≠ ["ε"] ∧
        ((r ∈ generate_alternatives nullable rule ∧ r ≠ []) ∨
          (nt = start ∧ [] ∈ generate_alternatives nullable rule ∧ r = ["ε"])) := by
  unfold epsNewRules
  rw [mem_epsNewRulesAux]
  simp

lemma nodup_altFold (start nt : Symb) :
    ∀ (alts : List Rule) (acc : List Rule), acc.Nodup →
      (alts.foldl (fun acc2 alt =>
          if alt = [] then (if nt = start then addIfAbsent acc2 ["ε"] else acc2)
          else addIfAbsent acc2 alt) acc).Nodup := by
  intro alts
  induction alts with
  | nil => intro acc h; exact h
  | cons a alts ih =>
      intro acc h
      rw [List.foldl_cons]
      apply ih
      by_cases ha : a = []
      · by_cases hs : nt = start <;> simp [ha, hs, nodup_addIfAbsent, h]
      · simp [ha, nodup_addIfAbsent, h]

lemma nodup_epsNewRules (start : Symb) (nullable : List Symb) (nt : Symb)
    (rules : List Rule) : (epsNewRules start nullable nt rules).Nodup := by
  unfold epsNewRules
  generalize hacc : ([] : List Rule) = acc
  have hnd : acc.Nodup := by rw [← hacc]; exact List.nodup_nil
  clear hacc
  induction rules generalizing acc with
  | nil => exact hnd
  | cons rule rules ih =>
      rw [List.foldl_cons]
      by_cases he : rule = ["ε"]
      · simp only [he, if_true]
        exact ih acc hnd
      · simp only [he, if_false]
        exact ih _ (nodup_altFold start nt _ acc hnd)

/-- C7: on a well-formed grammar (the ε-marker occurs only as the sole
element of a RHS), `eliminate_epsilon_productions` produces no `["ε"]`
rule except possibly one on the start symbol and no empty rule, and any
rule of the start symbol generating an empty alternative leads to an
explicit ε-production on the start symbol. -/
theorem eps_postcondition (g : Grammar)
    (hwf : ∀ p ∈ g.productions, ∀ r ∈ p.2, "ε" ∈ r → r = ["ε"]) :
    (∀ p ∈ (eliminate_epsilon_productions g).productions, ∀ r ∈ p.2,
        (r = ["ε"] → p.1 = g.start_symbol) ∧ r ≠ []) ∧
    (∀ p ∈ (eliminate_epsilon_productions g).productions, p.2.Nodup) ∧
    (∀ p ∈ g.productions, p.1 = g.start_symbol →
      (∃ r0 ∈ p.2, r0 ≠ ["ε"] ∧ [] ∈ generate_alternatives (nullableSet g) r0) →
      ∃ q ∈ (eliminate_epsilon_productions g).productions, q.1 = p.1 ∧ ["ε"] ∈ q.2) := by
  refine ⟨?_, ?_, ?_⟩
  · intro p' hp' r hr
    simp only [eliminate_epsilon_productions, List.mem_map] at hp'
    obtain ⟨p, hp, rfl⟩ := hp'
    simp only at hr
    rw [mem_epsNewRules] at hr
    obtain ⟨rule, hrule, hne, hc⟩ := hr
    rcases hc with ⟨halt, hne2⟩ | ⟨hs, _, he⟩
    · refine ⟨fun he => absurd ?_ hne, hne2⟩
      unfold generate_alternatives at halt
      rw [List.mem_dedup] at halt
      obtain ⟨sub, heq, hsub⟩ := genAltsAux_shape (nullableSet g) rule [] r halt
      rw [List.nil_append] at heq
      apply hwf p hp rule hrule
      apply hsub
      rw [← heq, he]
      exact List.mem_singleton_self "ε"
    · exact ⟨fun _ => hs, by rw [he]; simp⟩
  · intro p' hp'
    simp only [eliminate_epsilon_productions, List.mem_map] at hp'
    obtain ⟨p, hp, rfl⟩ := hp'
    exact nodup_epsNewRules g.start_symbol (nullableSet g) p.1 p.2
  · intro p hp hstart hex
    refine ⟨(p.1, epsNewRules g.start_symbol (nullableSet g) p.1 p.2), ?_, rfl, ?_⟩
    · simp only [eliminate_epsilon_productions, List.mem_map]
      exact ⟨p, hp, rfl⟩
    · rw [mem_epsNewRules]
      obtain ⟨r0, hr0, hne, h0⟩ := hex
      exact ⟨r0, hr0, hne, Or.inr ⟨hstart, h0, rfl⟩⟩

/-- Witness for C7 at the concrete grammar `gW`. -/
theorem eps_postcondition_witness :
    (∀ p ∈ gW.productions, ∀ r ∈ p.2, "ε" ∈ r → r = ["ε"]) ∧
    ((∀ p ∈ (eliminate_epsilon_productions gW).productions, ∀ r ∈ p.2,
        (r = ["ε"] → p.1 = gW.start_symbol) ∧ r ≠ []) ∧
    (∀ p ∈ (eliminate_epsilon_productions gW).productions, p.2.Nodup) ∧
    (∀ p ∈ gW.productions, p.1 = gW.start_symbol →
      (∃ r0 ∈ p.2, r0 ≠ ["ε"] ∧ [] ∈ generate_alternatives (nullableSet gW) r0) →
      ∃ q ∈ (eliminate_epsilon_productions gW).productions, q.1 = p.1 ∧ ["ε"] ∈ q.2)) :=
  ⟨by decide, eps_postcondition gW (by decide)⟩

/- ------------------------------------------------------------------ -/
/- C4: binarization does not share identical tails.                   -/
/- ------------------------------------------------------------------ -/

lemma binChain_count : ∀ (temp : Rule) (cur : Symb) (st : Prods × List Symb × Nat),
    (binChain cur temp st).2.2 = st.2.2 + (temp.length - 2) := by
  intro temp
  induction temp with
  | nil => intro cur st; obtain ⟨cnf, nts, count⟩ := st; simp [binChain]
  | cons a rest ih =>
      intro cur st
      obtain ⟨cnf, nts, count⟩ := st
      match rest with
      | [] => simp [binChain]
      | [b] => simp [binChain]
      | b :: c :: rest' =>
          rw [show binChain cur (a :: b :: c :: rest') (cnf, nts, count) =
            binChain ("X" ++ toString (count + 1)) (b :: c :: rest')
              (extendKey cnf cur [[a, "X" ++ toString (count + 1)]],
               insertS ("X" ++ toString (count + 1)) nts, count + 1) from rfl]
          rw [ih]
          simp [List.length_cons]
          omega

lemma partBRule_count (st : Prods × List Symb × Nat) (nt : Symb) (r : Rule) :
    (partBRule st nt r).2.2 = st.2.2 + (r.length - 2) := by
  by_cases h : r.length ≤ 2
  · rw [show partBRule st nt r = (extendKey st.1 nt [r], st.2.1, st.2.2) by
      unfold partBRule; rw [if_pos h]]
    have : r.length - 2 = 0 := by omega
    simp [this]
  · match r with
    | [] => simp at h
    | x :: tail =>
        rw [show partBRule st nt (x :: tail) =
          binChain ("X" ++ toString (st.2.2 + 1)) tail
            (extendKey st.1 nt [[x, "X" ++ toString (st.2.2 + 1)]],
             insertS ("X" ++ toString (st.2.2 + 1)) st.2.1, st.2.2 + 1) by
          unfold partBRule; rw [if_neg h]]
        rw [binChain_count]
        simp only [List.length_cons] at h ⊢
        omega

lemma partB_rules_count (nt : Symb) : ∀ (rules : List Rule) (st : Prods × List Symb × Nat),
    (rules.foldl (fun st2 r => partBRule st2 nt r) st).2.2 =
      st.2.2 + (rules.map (fun r => r.length - 2)).sum := by
  intro rules
  induction rules with
  | nil => intro st; simp
  | cons r rules ih =>
      intro st
      rw [List.foldl_cons, ih, partBRule_count]
      simp [Nat.add_assoc]

lemma partB_entries_count : ∀ (ps : Prods) (st : Prods × List Symb × Nat),
    (ps.foldl (fun st p => p.2.foldl (fun st2 r => partBRule st2 p.1 r) st) st).2.2 =
      st.2.2 + (ps.map (fun p => (p.2.map (fun r => r.length - 2)).sum)).sum := by
  intro ps
  induction ps with
  | nil => intro st; simp
  | cons p ps ih =>
      intro st
      rw [List.foldl_cons, ih, partB_rules_count]
      simp [Nat.add_assoc]

/-- C4 counterexample: in `convert_to_cnf` of S → A B C | D B C, the two
productions share the identical tail B C yet receive two distinct fresh
chain non-terminals X1 and X2 with identical productions — the chain is
duplicated, not reused, and two fresh non-terminals are generated for a
single distinct suffix. -/
theorem binarization_no_sharing_cex :
    lookupRules (convert_to_cnf gTails).productions "X1" = [["B", "C"]] ∧
    lookupRules (convert_to_cnf gTails).productions "X2" = [["B", "C"]] ∧
    "X1" ∉ gTails.non_terminals ∧ "X2" ∉ gTails.non_terminals ∧
    "X1" ∈ (convert_to_cnf gTails).non_terminals ∧
    "X2" ∈ (convert_to_cnf gTails).non_terminals ∧
    (convert_to_cnf gTails).non_terminals.length = gTails.non_terminals.length + 2 := by
  decide

/-- C4 amended: the binarization part of `convert_to_cnf` performs no
suffix sharing — every production of length n > 2 generates its own fresh
chain, so the chain counter (the number of generated `X` names) equals the
sum over all productions of max(0, RHS length − 2), independently of how
many distinct tails there are. -/
theorem binarization_fresh_count (ps : Prods) (nts0 : List Symb) :
    (partB ps nts0).2.2 = (ps.map (fun p => (p.2.map (fun r => r.length - 2)).sum)).sum := by
  unfold partB
  rw [partB_entries_count]
  simp

/- ------------------------------------------------------------------ -/
/- C9: convert_to_cnf is not idempotent in general.                   -/
/- ------------------------------------------------------------------ -/

/-- C9 counterexample: on the grammar with VT = {a, X1} and S → a a a,
the first CNF conversion generates the chain non-terminal "X1", which
collides with the terminal "X1"; the second application then replaces
that occurrence by a fresh T_X1, so the stage is not idempotent. -/
theorem cnf_not_idempotent_cex :
    convert_to_cnf (convert_to_cnf gX1) ≠ convert_to_cnf gX1 := by decide

/- ------------------------------------------------------------------ -/
/- Derivability: general lemmas.                                      -/
/- ------------------------------------------------------------------ -/

lemma sder_nil_inv {g : Grammar} {w : List Symb} (h : SDer g [] w) : w = [] := by
  cases h
  rfl

lemma sder_cons_inv {g : Grammar} {s : Symb} {rest w : List Symb}
    (h : SDer g (s :: rest) w) :
    (∃ w', w = s :: w' ∧ s ∈ g.terminals ∧ SDer g rest w') ∨
    (s = "ε" ∧ SDer g rest w) ∨
    (∃ rule w1 w2, s ∈ g.non_terminals ∧ rule ∈ lookupRules g.productions s ∧
      SDer g rule w1 ∧ SDer g rest w2 ∧ w = w1 ++ w2) := by
  cases h with
  | term ht hd => exact Or.inl ⟨_, rfl, ht, hd⟩
  | eps hd => exact Or.inr (Or.inl ⟨rfl, hd⟩)
  | expand hn hr h1 h2 => exact Or.inr (Or.inr ⟨_, _, _, hn, hr, h1, h2, rfl⟩)

lemma sder_append {g : Grammar} {l1 w1 : List Symb} (h1 : SDer g l1 w1) :
    ∀ {l2 w2 : List Symb}, SDer g l2 w2 → SDer g (l1 ++ l2) (w1 ++ w2) := by
  induction h1 with
  | nil => intro l2 w2 h2; simpa using h2
  | term ht _ ih => intro l2 w2 h2; exact SDer.term ht (ih h2)
  | eps _ ih => intro l2 w2 h2; exact SDer.eps (ih h2)
  | expand hn hr hrule _ _ ihrest =>
      intro l2 w2 h2
      rw [List.cons_append, List.append_assoc]
      exact SDer.expand hn hr hrule (ihrest h2)

/- ------------------------------------------------------------------ -/
/- C1: the pipeline does not preserve the language.                   -/
/- ------------------------------------------------------------------ -/

/-- C1 failing input: on the grammar S → a | ε the empty string (length
0 ≤ 8) is derivable from the original start symbol via its explicit
ε-production, but the full pipeline discards the ε-production (epsilon
elimination only re-emits ε from an empty alternative of a non-ε rule),
so the normalized grammar no longer derives the empty string. -/
theorem pipeline_loses_empty_string :
    SDer gEps ["S"] [] ∧ ¬ SDer (fullPipeline gEps) ["S"] [] := by
  constructor
  · exact @SDer.expand gEps "S" ["ε"] [] [] [] (by decide) (by decide)
      (SDer.eps SDer.nil) SDer.nil
  · have hfp : fullPipeline gEps = ⟨["S"], ["a"], [("S", [["a"]])], "S"⟩ := by decide
    rw [hfp]
    intro h
    rcases sder_cons_inv h with ⟨w', hw, _, _⟩ | ⟨hs, _⟩ |
      ⟨rule, w1, w2, _, hr, hrule, hrest, hw⟩
    · simp at hw
    · exact absurd hs (by decide)
    · have hrv : rule = ["a"] := by
        simp [lookupRules] at hr
        exact hr
      subst hrv
      have hw2 := sder_nil_inv hrest
      subst hw2
      rw [List.append_nil] at hw
      rw [← hw] at hrule
      rcases sder_cons_inv hrule with ⟨w', hw', _, _⟩ | ⟨hs, _⟩ |
        ⟨rule2, wa, wb, hn2, _, _, _, _⟩
      · simp at hw'
      · exact absurd hs (by decide)
      · exact absurd hn2 (by decide)

/- ------------------------------------------------------------------ -/
/- C2 counterexample: unit elimination drops ε-productions.           -/
/- ------------------------------------------------------------------ -/

/-- C2 counterexample: on the grammar S → ε, the empty string is
derivable from S before `eliminate_unit_productions` but not after — the
stage skips every ε-production when rebuilding the rule sets, so the
derivable terminal strings of S are not unchanged. -/
theorem unit_elim_changes_language_cex :
    SDer gUnitEps ["S"] [] ∧ ¬ SDer (eliminate_unit_productions gUnitEps) ["S"] [] := by
  constructor
  · exact @SDer.expand gUnitEps "S" ["ε"] [] [] [] (by decide) (by decide)
      (SDer.eps SDer.nil) SDer.nil
  · have hu : eliminate_unit_productions gUnitEps = ⟨["S"], ["a"], [("S", [])], "S"⟩ := by
      decide
    rw [hu]
    intro h
    rcases sder_cons_inv h with ⟨w', hw, _, _⟩ | ⟨hs, _⟩ | ⟨rule, w1, w2, _, hr, _, _, _⟩
    · simp at hw
    · exact absurd hs (by decide)
    · simp [lookupRules] at hr

/- ------------------------------------------------------------------ -/
/- Fixpoint iteration: generic lemmas.                                -/
/- ------------------------------------------------------------------ -/

lemma iterFix_mem_init (step : List Symb → List Symb)
    (hpre : ∀ s, ∃ t, step s = t ++ s) :
    ∀ (fuel : Nat) (s : List Symb) (x : Symb), x ∈ s → x ∈ iterFix step fuel s := by
  intro fuel
  induction fuel with
  | zero => intro s x hx; exact hx
  | succ n ih =>
      intro s x hx
      simp only [iterFix]
      by_cases hfix : step s = s
      · rw [if_pos hfix]; exact hx
      · rw [if_neg hfix]
        apply ih
        obtain ⟨t, ht⟩ := hpre s
        rw [ht]
        exact List.mem_append_right t hx

lemma iterFix_invariant (step : List Symb → List Symb) (Inv : List Symb → Prop)
    (hstep : ∀ s, Inv s → Inv (step s)) :
    ∀ (fuel : Nat) (s : List Symb), Inv s → Inv (iterFix step fuel s) := by
  intro fuel
  induction fuel with
  | zero => intro s h; exact h
  | succ n ih =>
      intro s h
      simp only [iterFix]
      by_cases hfix : step s = s
      · rw [if_pos hfix]; exact h
      · rw [if_neg hfix]; exact ih (step s) (hstep s h)

lemma iterFix_fix (step : List Symb → List Symb) (V : Finset Symb)
    (hpre : ∀ s, ∃ t, step s = t ++ s)
    (hnd : ∀ s, s.Nodup → (step s).Nodup)
    (hV : ∀ s, (∀ x ∈ s, x ∈ V) → ∀ x ∈ step s, x ∈ V) :
    ∀ (fuel : Nat) (s : List Symb), s.Nodup → (∀ x ∈ s, x ∈ V) →
      V.card < fuel + s.length →
      step (iterFix step fuel s) = iterFix step fuel s := by
  intro fuel
  induction fuel with
  | zero =>
      intro s hnds hVs hcard
      exfalso
      have hsub : s.toFinset ⊆ V := fun x hx => hVs x (List.mem_toFinset.mp hx)
      have h1 : s.length ≤ V.card := by
        calc s.length = s.toFinset.card := (List.toFinset_card_of_nodup hnds).symm
          _ ≤ V.card := Finset.card_le_card hsub
      omega
  | succ n ih =>
      intro s hnds hVs hcard
      simp only [iterFix]
      by_cases hfix : step s = s
      · rw [if_pos hfix]; exact hfix
      · rw [if_neg hfix]
        apply ih (step s) (hnd s hnds) (hV s hVs)
        obtain ⟨t, ht⟩ := hpre s
        have hlen : s.length < (step s).length := by
          rcases t with _ | ⟨a, t'⟩
          · exfalso; apply hfix; rw [ht, List.nil_append]
          · rw [ht, List.length_append, List.length_cons]; omega
        omega

/- ------------------------------------------------------------------ -/
/- C2: structural lemmas for the unit-pair fixpoint.                  -/
/- ------------------------------------------------------------------ -/

lemma unitInner_pre (g : Grammar) :
    ∀ (rules : List Rule) (acc : List Symb),
      ∃ t, rules.foldl (fun acc2 rule =>
        match rule with
        | [b] => if b ∈ g.non_terminals ∧ b ∉ acc2 then b :: acc2 else acc2
        | _ => acc2) acc = t ++ acc := by
  intro rules
  induction rules with
  | nil => intro acc; exact ⟨[], rfl⟩
  | cons r rules ih =>
      intro acc
      rw [List.foldl_cons]
      rcases r with _ | ⟨b, _ | ⟨c, rr⟩⟩
      · exact ih acc
      · simp only
        by_cases hb : b ∈ g.non_terminals ∧ b ∉ acc
        · rw [if_pos hb]
          obtain ⟨t, ht⟩ := ih (b :: acc)
          exact ⟨t ++ [b], by rw [ht, List.append_assoc, List.singleton_append]⟩
        · rw [if_neg hb]; exact ih acc
      · exact ih acc

lemma unitOuter_pre (g : Grammar) :
    ∀ (l acc0 : List Symb),
      ∃ t, l.foldl (fun acc A =>
        (lookupRules g.productions A).foldl (fun acc2 rule =>
          match rule with
          | [b] => if b ∈ g.non_terminals ∧ b ∉ acc2 then b :: acc2 else acc2
          | _ => acc2) acc) acc0 = t ++ acc0 := by
  intro l
  induction l with
  | nil => intro acc0; exact ⟨[], rfl⟩
  | cons A s ih =>
      intro acc0
      rw [List.foldl_cons]
      obtain ⟨t1, ht1⟩ := unitInner_pre g (lookupRules g.productions A) acc0
      obtain ⟨t2, ht2⟩ := ih (List.foldl _ acc0 (lookupRules g.productions A))
      refine ⟨t2 ++ t1, ?_⟩
      rw [List.append_assoc, ← ht1]
      exact ht2

lemma unitPass_pre (g : Grammar) (s : List Symb) : ∃ t, unitPass g s = t ++ s :=
  unitOuter_pre g s s

lemma unitInner_nodup (g : Grammar) :
    ∀ (rules : List Rule) (acc : List Symb), acc.Nodup →
      (rules.foldl (fun acc2 rule =>
        match rule with
        | [b] => if b ∈ g.non_terminals ∧ b ∉ acc2 then b :: acc2 else acc2
        | _ => acc2) acc).Nodup := by
  intro rules
  induction rules with
  | nil => intro acc h; exact h
  | cons r rules ih =>
      intro acc h
      rw [List.foldl_cons]
      rcases r with _ | ⟨b, _ | ⟨c, rr⟩⟩
      · exact ih acc h
      · simp only
        by_cases hb : b ∈ g.non_terminals ∧ b ∉ acc
        · rw [if_pos hb]
          exact ih (b :: acc) (List.nodup_cons.mpr ⟨hb.2, h⟩)
        · rw [if_neg hb]; exact ih acc h
      · exact ih acc h

lemma unitPass_nodup (g : Grammar) (s : List Symb) (h : s.Nodup) :
    (unitPass g s).Nodup := by
  unfold unitPass
  have hgen : ∀ (l acc0 : List Symb), acc0.Nodup →
      (l.foldl (fun acc A =>
        (lookupRules g.productions A).foldl (fun acc2 rule =>
          match rule with
          | [b] => if b ∈ g.non_terminals ∧ b ∉ acc2 then b :: acc2 else acc2
          | _ => acc2) acc) acc0).Nodup := by
    intro l
    induction l with
    | nil => intro acc0 h0; exact h0
    | cons A s ih =>
        intro acc0 h0
        rw [List.foldl_cons]
        exact ih _ (unitInner_nodup g _ acc0 h0)
  exact hgen s s h

lemma unitInner_mem (g : Grammar) :
    ∀ (rules : List Rule) (acc : List Symb) (x : Symb),
      x ∈ rules.foldl (fun acc2 rule =>
        match rule with
        | [b] => if b ∈ g.non_terminals ∧ b ∉ acc2 then b :: acc2 else acc2
        | _ => acc2) acc →
      x ∈ acc ∨ ([x] ∈ rules ∧ x ∈ g.non_terminals) := by
  intro rules
  induction rules with
  | nil => intro acc x hx; exact Or.inl hx
  | cons r rules ih =>
      intro acc x hx
      rw [List.foldl_cons] at hx
      rcases r with _ | ⟨b, _ | ⟨c, rr⟩⟩
      · rcases ih acc x hx with h | ⟨h1, h2⟩
        · exact Or.inl h
        · exact Or.inr ⟨List.mem_cons_of_mem _ h1, h2⟩
      · simp only at hx
        by_cases hb : b ∈ g.non_terminals ∧ b ∉ acc
        · rw [if_pos hb] at hx
          rcases ih (b :: acc) x hx with h | ⟨h1, h2⟩
          · rcases List.mem_cons.mp h with rfl | h'
            · exact Or.inr ⟨List.mem_cons_self _ _, hb.1⟩
            · exact Or.inl h'
          · exact Or.inr ⟨List.mem_cons_of_mem _ h1, h2⟩
        · rw [if_neg hb] at hx
          rcases ih acc x hx with h | ⟨h1, h2⟩
          · exact Or.inl h
          · exact Or.inr ⟨List.mem_cons_of_mem _ h1, h2⟩
      · rcases ih acc x hx with h | ⟨h1, h2⟩
        · exact Or.inl h
        · exact Or.inr ⟨List.mem_cons_of_mem _ h1, h2⟩

lemma unitPass_mem (g : Grammar) (s : List Symb) (x : Symb)
    (hx : x ∈ unitPass g s) :
    x ∈ s ∨ ∃ a ∈ s, [x] ∈ lookupRules g.productions a ∧ x ∈ g.non_terminals := by
  unfold unitPass at hx
  have hgen : ∀ (l acc0 : List Symb), x ∈ l.foldl (fun acc A =>
      (lookupRules g.productions A).foldl (fun acc2 rule =>
        match rule with
        | [b] => if b ∈ g.non_terminals ∧ b ∉ acc2 then b :: acc2 else acc2
        | _ => acc2) acc) acc0 →
      x ∈ acc0 ∨ ∃ a ∈ l, [x] ∈ lookupRules g.productions a ∧ x ∈ g.non_terminals := by
    intro l
    induction l with
    | nil => intro acc0 h0; exact Or.inl h0
    | cons A s ih =>
        intro acc0 h0
        rw [List.foldl_cons] at h0
        rcases ih _ h0 with h | ⟨a, ha, h1, h2⟩
        · rcases unitInner_mem g _ acc0 x h with h' | ⟨h1, h2⟩
          · exact Or.inl h'
          · exact Or.inr ⟨A, List.mem_cons_self _ _, h1, h2⟩
        · exact Or.inr ⟨a, List.mem_cons_of_mem _ ha, h1, h2⟩
  rcases hgen s s hx with h | h
  · exact Or.inl h
  · exact Or.inr h

lemma unitInner_adds (g : Grammar) :
    ∀ (rules : List Rule) (acc : List Symb) (c : Symb),
      [c] ∈ rules → c ∈ g.non_terminals →
      c ∈ rules.foldl (fun acc2 rule =>
        match rule with
        | [b] => if b ∈ g.non_terminals ∧ b ∉ acc2 then b :: acc2 else acc2
        | _ => acc2) acc := by
  intro rules
  induction rules with
  | nil => intro acc c hc; simp at hc
  | cons r rules ih =>
      intro acc c hc hcn
      rw [List.foldl_cons]
      rcases List.mem_cons.mp hc with rfl | hc'
      · simp only
        by_cases hb : c ∈ g.non_terminals ∧ c ∉ acc
        · rw [if_pos hb]
          obtain ⟨t, ht⟩ := unitInner_pre g rules (c :: acc)
          rw [ht]
          exact List.mem_append_right t (List.mem_cons_self _ _)
        · rw [if_neg hb]
          push_neg at hb
          obtain ⟨t, ht⟩ := unitInner_pre g rules acc
          rw [ht]
          exact List.mem_append_right t (hb hcn)
      · exact ih _ c hc' hcn

lemma unitPass_adds (g : Grammar) (s : List Symb) (a c : Symb)
    (ha : a ∈ s) (hc : [c] ∈ lookupRules g.productions a) (hcn : c ∈ g.non_terminals) :
    c ∈ unitPass g s := by
  unfold unitPass
  have hgen : ∀ (l acc0 : List Symb), a ∈ l →
      c ∈ l.foldl (fun acc A =>
        (lookupRules g.productions A).foldl (fun acc2 rule =>
          match rule with
          | [b] => if b ∈ g.non_terminals ∧ b ∉ acc2 then b :: acc2 else acc2
          | _ => acc2) acc) acc0 := by
    intro l
    induction l with
    | nil => intro acc0 h0; simp at h0
    | cons A s ih =>
        intro acc0 h0
        rw [List.foldl_cons]
        rcases List.mem_cons.mp h0 with rfl | h0'
        · obtain ⟨t, ht⟩ := unitOuter_pre g s (List.foldl _ acc0 (lookupRules g.productions a))
          rw [ht]
          exact List.mem_append_right t (unitInner_adds g _ acc0 c hc hcn)
        · exact ih _ h0'
  exact hgen s s ha

lemma unitPairs_mem_self (g : Grammar) (nt : Symb) : nt ∈ unitPairs g nt :=
  iterFix_mem_init (unitPass g) (unitPass_pre g) _ [nt] nt (List.mem_singleton_self nt)

lemma unitPairs_sound (g : Grammar) (nt : Symb) :
    ∀ B ∈ unitPairs g nt, UnitPair g nt B := by
  have h := iterFix_invariant (unitPass g) (fun s => ∀ x ∈ s, UnitPair g nt x)
    (fun s hs x hx => by
      rcases unitPass_mem g s x hx with h' | ⟨a, ha, h1, h2⟩
      · exact hs x h'
      · exact UnitPair.step (hs a ha) h1 h2)
    (g.non_terminals.length + 2) [nt]
    (fun x hx => by
      rw [List.mem_singleton] at hx
      rw [hx]
      exact UnitPair.refl nt)
  exact h

lemma unitPairs_fixed (g : Grammar) (nt : Symb) :
    unitPass g (unitPairs g nt) = unitPairs g nt := by
  apply iterFix_fix (unitPass g) (insert nt g.non_terminals.toFinset)
    (unitPass_pre g) (unitPass_nodup g)
  · intro s hs x hx
    rcases unitPass_mem g s x hx with h' | ⟨_, _, _, h2⟩
    · exact hs x h'
    · exact Finset.mem_insert_of_mem (List.mem_toFinset.mpr h2)
  · exact List.nodup_singleton nt
  · intro x hx
    rw [List.mem_singleton] at hx
    rw [hx]
    exact Finset.mem_insert_self nt _
  · have h1 : (insert nt g.non_terminals.toFinset).card ≤ g.non_terminals.toFinset.card + 1 :=
      Finset.card_insert_le nt _
    have h2 : g.non_terminals.toFinset.card ≤ g.non_terminals.length :=
      g.non_terminals.toFinset_card_le
    simp only [List.length_singleton]
    omega

lemma unitPairs_complete (g : Grammar) {nt B : Symb} (h : UnitPair g nt B) :
    B ∈ unitPairs g nt := by
  induction h with
  | refl => exact unitPairs_mem_self g nt
  | step _ hrule hmem ih =>
      rw [← unitPairs_fixed g nt]
      exact unitPass_adds g (unitPairs g nt) _ _ ih hrule hmem

lemma unitPair_trans {g : Grammar} {A B C : Symb}
    (h1 : UnitPair g A B) (h2 : UnitPair g B C) : UnitPair g A C := by
  induction h2 with
  | refl => exact h1
  | step _ hrule hmem ih => exact UnitPair.step ih hrule hmem

lemma unitPair_mem {g : Grammar} {A B : Symb} (h : UnitPair g A B)
    (hA : A ∈ g.non_terminals) : B ∈ g.non_terminals := by
  induction h with
  | refl => exact hA
  | step _ _ hmem _ => exact hmem

lemma unitNewInner_mem (g : Grammar) :
    ∀ (rules acc : List Rule) (r : Rule),
      r ∈ rules.foldl (fun acc2 rule =>
        if rule = ["ε"] then acc2
        else if isUnitRule g rule then acc2
        else addIfAbsent acc2 rule) acc ↔
      r ∈ acc ∨ (r ∈ rules ∧ r ≠ ["ε"] ∧ ¬ isUnitRule g r) := by
  intro rules
  induction rules with
  | nil => intro acc r; simp
  | cons rule rules ih =>
      intro acc r
      rw [List.foldl_cons, ih]
      by_cases he : rule = ["ε"]
      · simp only [he, if_true, List.mem_cons]
        constructor
        · rintro (h | h)
          · exact Or.inl h
          · exact Or.inr ⟨Or.inr h.1, h.2⟩
        · rintro (h | ⟨rfl | hm, hne, hnu⟩)
          · exact Or.inl h
          · exact absurd rfl hne
          · exact Or.inr ⟨hm, hne, hnu⟩
      · by_cases hu : isUnitRule g rule
        · simp only [he, hu, if_true, if_false, List.mem_cons]
          constructor
          · rintro (h | h)
            · exact Or.inl h
            · exact Or.inr ⟨Or.inr h.1, h.2⟩
          · rintro (h | ⟨rfl | hm, hne, hnu⟩)
            · exact Or.inl h
            · exact absurd hu hnu
            · exact Or.inr ⟨hm, hne, hnu⟩
        · simp only [he, hu, if_false, mem_addIfAbsent, List.mem_cons]
          constructor
          · rintro ((h | rfl) | h)
            · exact Or.inl h
            · exact Or.inr ⟨Or.inl rfl, he, hu⟩
            · exact Or.inr ⟨Or.inr h.1, h.2⟩
          · rintro (h | ⟨rfl | hm, hne, hnu⟩)
            · exact Or.inl (Or.inl h)
            · exact Or.inl (Or.inr rfl)
            · exact Or.inr ⟨hm, hne, hnu⟩

lemma mem_unitNewRules (g : Grammar) (nt : Symb) (r : Rule) :
    r ∈ unitNewRules g nt ↔
      ∃ B ∈ unitPairs g nt, r ∈ lookupRules g.productions B ∧
        r ≠ ["ε"] ∧ ¬ isUnitRule g r := by
  unfold unitNewRules
  have hgen : ∀ (l : List Symb) (acc : List Rule),
      r ∈ l.foldl (fun acc B =>
        (lookupRules g.productions B).foldl (fun acc2 rule =>
          if rule = ["ε"] then acc2
          else if isUnitRule g rule then acc2
          else addIfAbsent acc2 rule) acc) acc ↔
      r ∈ acc ∨ ∃ B ∈ l, r ∈ lookupRules g.productions B ∧
        r ≠ ["ε"] ∧ ¬ isUnitRule g r := by
    intro l
    induction l with
    | nil => intro acc; simp
    | cons B l ih =>
        intro acc
        rw [List.foldl_cons, ih, unitNewInner_mem]
        constructor
        · rintro ((h | h) | ⟨B', hB', hc⟩)
          · exact Or.inl h
          · exact Or.inr ⟨B, List.mem_cons_self _ _, h⟩
          · exact Or.inr ⟨B', List.mem_cons_of_mem _ hB', hc⟩
        · rintro (h | ⟨B', hB', hc⟩)
          · exact Or.inl (Or.inl h)
          · rcases List.mem_cons.mp hB' with rfl | hB''
            · exact Or.inl (Or.inr hc)
            · exact Or.inr ⟨B', hB'', hc⟩
  rw [hgen]
  simp

lemma mem_unitNewRules_iff (g : Grammar) (A : Symb) (r : Rule) :
    r ∈ unitNewRules g A ↔
      ∃ B, UnitPair g A B ∧ r ∈ lookupRules g.productions B ∧
        r ≠ ["ε"] ∧ ¬ isUnitRule g r := by
  rw [mem_unitNewRules]
  constructor
  · rintro ⟨B, hB, hc⟩
    exact ⟨B, unitPairs_sound g A B hB, hc⟩
  · rintro ⟨B, hB, hc⟩
    exact ⟨B, unitPairs_complete g hB, hc⟩

lemma lookup_unit_out (g : Grammar) :
    ∀ (l : List Symb) (A : Symb), A ∈ l →
      lookupRules (l.map (fun nt => (nt, unitNewRules g nt))) A = unitNewRules g A := by
  intro l
  induction l with
  | nil => intro A hA; simp at hA
  | cons nt l ih =>
      intro A hA
      by_cases h : nt = A
      · subst h
        simp [lookupRules]
      · rw [List.map_cons, lookupRules, if_neg h]
        rcases List.mem_cons.mp hA with rfl | hA'
        · exact absurd rfl h
        · exact ih A hA'

lemma mem_lookupRules_entry {ps : Prods} {A : Symb} {r : Rule}
    (h : r ∈ lookupRules ps A) : ∃ p ∈ ps, p.1 = A ∧ r ∈ p.2 := by
  induction ps with
  | nil => simp [lookupRules] at h
  | cons p ps ih =>
      rw [lookupRules] at h
      by_cases hp : p.1 = A
      · rw [if_pos hp] at h
        exact ⟨p, List.mem_cons_self _ _, hp, h⟩
      · rw [if_neg hp] at h
        obtain ⟨q, hq, hq1, hq2⟩ := ih h
        exact ⟨q, List.mem_cons_of_mem _ hq, hq1, hq2⟩

lemma sder_up (g : Grammar) {A B : Symb} {w : List Symb} (hup : UnitPair g A B)
    (hA : A ∈ g.non_terminals) : SDer g [B] w → SDer g [A] w := by
  induction hup with
  | refl => exact id
  | step hup' hrule hmem ih =>
      intro h
      apply ih
      have h2 := SDer.expand (unitPair_mem hup' hA) hrule h SDer.nil
      rwa [List.append_nil] at h2

lemma sder_unit_forward (g : Grammar) :
    ∀ {l w : List Symb}, SDer (eliminate_unit_productions g) l w → SDer g l w := by
  intro l w h
  induction h with
  | nil => exact SDer.nil
  | term ht _ ih => exact SDer.term ht ih
  | eps _ ih => exact SDer.eps ih
  | expand hn hr hrulea hresta ihrule ihrest =>
      rename_i s rule rest w1 w2
      have hs : s ∈ g.non_terminals := hn
      rw [show (eliminate_unit_productions g).productions =
          g.non_terminals.map (fun nt => (nt, unitNewRules g nt)) from rfl,
        lookup_unit_out g g.non_terminals s hs, mem_unitNewRules_iff] at hr
      obtain ⟨B, hup, hB, _, _⟩ := hr
      have hBn : B ∈ g.non_terminals := unitPair_mem hup hs
      have h1 : SDer g [B] w1 := by
        have h2 := SDer.expand hBn hB ihrule SDer.nil
        rwa [List.append_nil] at h2
      exact sder_append (sder_up g hup hs h1) ihrest

lemma sder_unit_backward (g : Grammar)
    (hdisj : ∀ x ∈ g.non_terminals, x ∉ g.terminals)
    (hepsnt : "ε" ∉ g.non_terminals)
    (hnoeps : ∀ p ∈ g.productions, ["ε"] ∉ p.2) :
    ∀ {l w : List Symb}, SDer g l w → SDer (eliminate_unit_productions g) l w := by
  intro l w h
  induction h with
  | nil => exact SDer.nil
  | term ht _ ih => exact SDer.term ht ih
  | eps _ ih => exact SDer.eps ih
  | expand hn hr hrulea hresta ihrule ihrest =>
      rename_i s rule rest w1 w2
      by_cases hu : isUnitRule g rule
      · rcases rule with _ | ⟨C, _ | ⟨d, drest⟩⟩
        · exact absurd hu (fun hf => hf)
        · have hC : C ∈ g.non_terminals := hu
          rcases sder_cons_inv ihrule with ⟨w', _, hterm, _⟩ | ⟨heps, _⟩ |
            ⟨rule', wa, wb, _, hr', hrule', hrest', hw⟩
          · exact absurd hterm (hdisj C hC)
          · rw [heps] at hC
            exact absurd hC hepsnt
          · have hwb : wb = [] := sder_nil_inv hrest'
            rw [hwb, List.append_nil] at hw
            rw [show (eliminate_unit_productions g).productions =
                g.non_terminals.map (fun nt => (nt, unitNewRules g nt)) from rfl,
              lookup_unit_out g g.non_terminals C hC, mem_unitNewRules_iff] at hr'
            obtain ⟨B, hupCB, hB, hne, hnu⟩ := hr'
            have hupsB : UnitPair g s B :=
              unitPair_trans (UnitPair.step (UnitPair.refl s) hr hC) hupCB
            have hr2 : rule' ∈ lookupRules (eliminate_unit_productions g).productions s := by
              rw [show (eliminate_unit_productions g).productions =
                  g.non_terminals.map (fun nt => (nt, unitNewRules g nt)) from rfl,
                lookup_unit_out g g.non_terminals s hn, mem_unitNewRules_iff]
              exact ⟨B, hupsB, hB, hne, hnu⟩
            rw [hw]
            exact SDer.expand hn hr2 hrule' ihrest
        · exact absurd hu (fun hf => hf)
      · by_cases he : rule = ["ε"]
        · obtain ⟨p, hp, _, hrp⟩ := mem_lookupRules_entry hr
          rw [he] at hrp
          exact absurd hrp (hnoeps p hp)
        · have hr2 : rule ∈ lookupRules (eliminate_unit_productions g).productions s := by
            rw [show (eliminate_unit_productions g).productions =
                g.non_terminals.map (fun nt => (nt, unitNewRules g nt)) from rfl,
              lookup_unit_out g g.non_terminals s hn, mem_unitNewRules_iff]
            exact ⟨s, UnitPair.refl s, hr, he, hu⟩
          exact SDer.expand hn hr2 ihrule ihrest

/-- C2 amended: for every grammar, `eliminate_unit_productions` produces
no unit production, and the new rule set of each non-terminal A is
exactly the union, over every B in unit-pairs(A) (the least set
containing A closed under unit steps), of the productions of B that are
neither unit productions nor ε-productions; on grammars without
ε-productions (VN disjoint from VT and ε not a non-terminal) the set of
terminal strings derivable from each non-terminal is in addition
unchanged.  (The language-preservation part fails for grammars with
ε-productions, which the stage silently drops.) -/
theorem unit_elimination_correct (g : Grammar) :
    (∀ p ∈ (eliminate_unit_productions g).productions, ∀ r ∈ p.2, ¬ isUnitRule g r) ∧
    (∀ A ∈ g.non_terminals, ∀ r : Rule,
      r ∈ lookupRules (eliminate_unit_productions g).productions A ↔
        ∃ B, UnitPair g A B ∧ r ∈ lookupRules g.productions B ∧
          r ≠ ["ε"] ∧ ¬ isUnitRule g r) ∧
    ((∀ x ∈ g.non_terminals, x ∉ g.terminals) → "ε" ∉ g.non_terminals →
      (∀ p ∈ g.productions, ["ε"] ∉ p.2) →
      ∀ (A : Symb) (w : List Symb),
        SDer (eliminate_unit_productions g) [A] w ↔ SDer g [A] w) := by
  refine ⟨?_, ?_, ?_⟩
  · intro p hp r hr
    rw [show (eliminate_unit_productions g).productions =
        g.non_terminals.map (fun nt => (nt, unitNewRules g nt)) from rfl,
      List.mem_map] at hp
    obtain ⟨nt, _, rfl⟩ := hp
    rw [show (nt, unitNewRules g nt).2 = unitNewRules g nt from rfl,
      mem_unitNewRules_iff] at hr
    obtain ⟨B, _, _, _, hnu⟩ := hr
    exact hnu
  · intro A hA r
    rw [show (eliminate_unit_productions g).productions =
        g.non_terminals.map (fun nt => (nt, unitNewRules g nt)) from rfl,
      lookup_unit_out g g.non_terminals A hA, mem_unitNewRules_iff]
  · intro hdisj hepsnt hnoeps A w
    exact ⟨sder_unit_forward g, sder_unit_backward g hdisj hepsnt hnoeps⟩

/-- Witness for the amended C2: the unconditional parts at `gUnitEps`
(an ε-grammar, where the characterization shows the ε-production being
skipped) and the conditional language-preservation part at `gW`, its
hypotheses discharged there. -/
theorem unit_elimination_correct_witness :
    (∀ p ∈ (eliminate_unit_productions gUnitEps).productions, ∀ r ∈ p.2,
      ¬ isUnitRule gUnitEps r) ∧
    (∀ A ∈ gUnitEps.non_terminals, ∀ r : Rule,
      r ∈ lookupRules (eliminate_unit_productions gUnitEps).productions A ↔
        ∃ B, UnitPair gUnitEps A B ∧ r ∈ lookupRules gUnitEps.productions B ∧
          r ≠ ["ε"] ∧ ¬ isUnitRule gUnitEps r) ∧
    (∀ (A : Symb) (w : List Symb),
      SDer (eliminate_unit_productions gW) [A] w ↔ SDer gW [A] w) :=
  ⟨(unit_elimination_correct gUnitEps).1,
    (unit_elimination_correct gUnitEps).2.1,
    (unit_elimination_correct gW).2.2 (by decide) (by decide) (by decide)⟩

/- ------------------------------------------------------------------ -/
/- extendKey: membership and structure lemmas.                        -/
/- ------------------------------------------------------------------ -/

lemma mem_extendKey : ∀ (m : Prods) (k : Symb) (rs : List Rule),
    ∀ p ∈ extendKey m k rs, ∀ r ∈ p.2,
      (∃ q ∈ m, q.1 = p.1 ∧ r ∈ q.2) ∨ (p.1 = k ∧ r ∈ rs) := by
  intro m
  induction m with
  | nil =>
      intro k rs p hp r hr
      rw [extendKey, List.mem_singleton] at hp
      subst hp
      exact Or.inr ⟨rfl, hr⟩
  | cons q m ih =>
      intro k rs p hp r hr
      rw [extendKey] at hp
      by_cases hq : q.1 = k
      · rw [if_pos hq] at hp
        rcases List.mem_cons.mp hp with rfl | hp'
        · rcases List.mem_append.mp hr with h | h
          · exact Or.inl ⟨q, List.mem_cons_self _ _, rfl, h⟩
          · exact Or.inr (by rw [show (q.1, q.2 ++ rs).1 = q.1 from rfl]; exact ⟨hq, h⟩)
        · exact Or.inl ⟨p, List.mem_cons_of_mem _ hp', rfl, hr⟩
      · rw [if_neg hq] at hp
        rcases List.mem_cons.mp hp with rfl | hp'
        · exact Or.inl ⟨p, List.mem_cons_self _ _, rfl, hr⟩
        · rcases ih k rs p hp' r hr with ⟨q', hq', h1, h2⟩ | h
          · exact Or.inl ⟨q', List.mem_cons_of_mem _ hq', h1, h2⟩
          · exact Or.inr h

lemma keys_extendKey : ∀ (m : Prods) (k : Symb) (rs : List Rule),
    (extendKey m k rs).map Prod.fst =
      if k ∈ m.map Prod.fst then m.map Prod.fst else m.map Prod.fst ++ [k] := by
  intro m
  induction m with
  | nil => intro k rs; simp [extendKey]
  | cons q m ih =>
      intro k rs
      rw [extendKey]
      by_cases hq : q.1 = k
      · rw [if_pos hq]
        have hk : k ∈ (q :: m).map Prod.fst := by
          rw [List.map_cons, ← hq]
          exact List.mem_cons_self _ _
        rw [if_pos hk]
        simp [hq]
      · rw [if_neg hq, List.map_cons, List.map_cons, ih]
        by_cases hk : k ∈ m.map Prod.fst
        · rw [if_pos hk, if_pos (List.mem_cons_of_mem _ hk)]
        · rw [if_neg hk, if_neg (by
            rw [List.mem_cons]
            rintro (h | h)
            · exact hq h.symm
            · exact hk h)]
          rw [List.cons_append]

lemma nodup_keys_extendKey {m : Prods} {k : Symb} {rs : List Rule}
    (h : (m.map Prod.fst).Nodup) : ((extendKey m k rs).map Prod.fst).Nodup := by
  rw [keys_extendKey]
  by_cases hk : k ∈ m.map Prod.fst
  · rw [if_pos hk]; exact h
  · rw [if_neg hk, List.nodup_append]
    exact ⟨h, List.nodup_singleton k, by
      intro a ha hb
      rw [List.mem_singleton] at hb
      rw [hb] at ha
      exact hk ha⟩

lemma extendKey_not_mem : ∀ (m : Prods) (k : Symb) (rs : List Rule),
    k ∉ m.map Prod.fst → extendKey m k rs = m ++ [(k, rs)] := by
  intro m
  induction m with
  | nil => intro k rs _; rfl
  | cons q m ih =>
      intro k rs hk
      rw [extendKey]
      have hq : q.1 ≠ k := by
        intro h
        apply hk
        rw [List.map_cons, h]
        exact List.mem_cons_self _ _
      rw [if_neg hq, List.cons_append, ih k rs (by
        intro h
        exact hk (by rw [List.map_cons]; exact List.mem_cons_of_mem _ h))]

lemma extendKey_extendKey : ∀ (m : Prods) (k : Symb) (rs1 rs2 : List Rule),
    extendKey (extendKey m k rs1) k rs2 = extendKey m k (rs1 ++ rs2) := by
  intro m
  induction m with
  | nil => intro k rs1 rs2; simp [extendKey, List.append_assoc]
  | cons q m ih =>
      intro k rs1 rs2
      rw [extendKey]
      by_cases hq : q.1 = k
      · rw [if_pos hq, extendKey, extendKey]
        simp only [if_pos hq]
        rw [List.append_assoc]
      · rw [if_neg hq, extendKey, extendKey, if_neg hq, if_neg hq, ih]

lemma foldl_extendKey_single (nt : Symb) :
    ∀ (rules : List Rule) (c0 : Prods) (rs0 : List Rule),
      rules.foldl (fun c r => extendKey c nt [r]) (extendKey c0 nt rs0) =
        extendKey c0 nt (rs0 ++ rules) := by
  intro rules
  induction rules with
  | nil => intro c0 rs0; simp
  | cons r rules ih =>
      intro c0 rs0
      rw [List.foldl_cons, extendKey_extendKey, ih, List.append_assoc,
        List.singleton_append]

lemma foldl_extendKey_rebuild :
    ∀ (m pre : Prods), ((pre ++ m).map Prod.fst).Nodup →
      m.foldl (fun acc p => extendKey acc p.1 p.2) pre = pre ++ m := by
  intro m
  induction m with
  | nil => intro pre _; simp
  | cons p m ih =>
      intro pre hnd
      rw [List.foldl_cons]
      have hp : p.1 ∉ pre.map Prod.fst := by
        rw [List.map_append, List.nodup_append] at hnd
        intro h
        exact hnd.2.2 h (by rw [List.map_cons]; exact List.mem_cons_self _ _)
      rw [extendKey_not_mem pre p.1 p.2 hp, ih (pre ++ [p]) (by
        rw [List.append_assoc, List.singleton_append]
        exact hnd), List.append_assoc, List.singleton_append]

/- ------------------------------------------------------------------ -/
/- C3: shape of the CNF output.                                       -/
/- ------------------------------------------------------------------ -/

lemma midRule_mono {g : Grammar} {nts nts' : List Symb} {key : Symb} {r : Rule}
    (hsub : ∀ x ∈ nts, x ∈ nts') (h : midRule g nts key r) : midRule g nts' key r := by
  rcases h with h | h | ⟨h1, h2⟩
  · exact Or.inl h
  · exact Or.inr (Or.inl h)
  · exact Or.inr (Or.inr ⟨h1, fun x hx => hsub x (h2 x hx)⟩)

lemma cnfRule_mono {g : Grammar} {nts nts' : List Symb} {key : Symb} {r : Rule}
    (hsub : ∀ x ∈ nts, x ∈ nts') (h : cnfRule g nts key r) : cnfRule g nts' key r := by
  rcases h with h | h | ⟨u, v, h1, h2, h3⟩
  · exact Or.inl h
  · exact Or.inr (Or.inl h)
  · exact Or.inr (Or.inr ⟨u, v, h1, hsub u h2, hsub v h3⟩)

lemma lookupTM_mem : ∀ (m : List (Symb × Symb)) (s v : Symb),
    lookupTM m s = some v → ∃ q ∈ m, q.1 = s ∧ q.2 = v := by
  intro m
  induction m with
  | nil => intro s v h; simp [lookupTM] at h
  | cons q m ih =>
      intro s v h
      rw [lookupTM] at h
      by_cases hq : q.1 = s
      · rw [if_pos hq, Option.some_inj] at h
        exact ⟨q, List.mem_cons_self _ _, hq, h⟩
      · rw [if_neg hq] at h
        obtain ⟨q', hq', h1, h2⟩ := ih s v h
        exact ⟨q', List.mem_cons_of_mem _ hq', h1, h2⟩

lemma partASym_spec (g : Grammar) (st : StA × Rule) (s : Symb)
    (hT : ∀ q ∈ st.1.tmap, q.2 ∈ st.1.nts)
    (hG : ∀ p ∈ st.1.np, ∀ r ∈ p.2, midRule g st.1.nts p.1 r) :
    (∀ q ∈ (partASym g.terminals st s).1.tmap, q.2 ∈ (partASym g.terminals st s).1.nts) ∧
    (∀ x ∈ st.1.nts, x ∈ (partASym g.terminals st s).1.nts) ∧
    (∀ p ∈ (partASym g.terminals st s).1.np, ∀ r ∈ p.2,
      midRule g (partASym g.terminals st s).1.nts p.1 r) ∧
    (∃ y, (partASym g.terminals st s).2 = st.2 ++ [y] ∧
      (y ∈ (partASym g.terminals st s).1.nts ∨ (y = s ∧ s ∉ g.terminals))) := by
  by_cases hst : s ∈ g.terminals
  · rcases hm : lookupTM st.1.tmap s with _ | nn
    · rw [show partASym g.terminals st s =
          (⟨(s, underscoreFresh (st.1.nts.length + 1) ("T_" ++ s) st.1.nts) :: st.1.tmap,
            extendKey st.1.np
              (underscoreFresh (st.1.nts.length + 1) ("T_" ++ s) st.1.nts) [[s]],
            insertS (underscoreFresh (st.1.nts.length + 1) ("T_" ++ s) st.1.nts) st.1.nts⟩,
            st.2 ++ [underscoreFresh (st.1.nts.length + 1) ("T_" ++ s) st.1.nts]) by
        unfold partASym
        rw [if_pos hst, hm]]
      refine ⟨?_, ?_, ?_, ?_⟩
      · intro q hq
        rcases List.mem_cons.mp hq with rfl | hq'
        · exact self_mem_insertS
        · exact mem_insertS_of_mem (hT q hq')
      · intro x hx
        exact mem_insertS_of_mem hx
      · intro p hp r hr
        rcases mem_extendKey _ _ _ p hp r hr with ⟨q, hq, h1, h2⟩ | ⟨h1, h2⟩
        · rw [← h1]
          exact midRule_mono (fun x hx => mem_insertS_of_mem hx) (hG q hq r h2)
        · rw [List.mem_singleton] at h2
          exact Or.inl ⟨s, hst, h2⟩
      · exact ⟨_, rfl, Or.inl self_mem_insertS⟩
    · rw [show partASym g.terminals st s = (st.1, st.2 ++ [nn]) by
        unfold partASym
        rw [if_pos hst, hm]]
      obtain ⟨q, hq, _, h2⟩ := lookupTM_mem st.1.tmap s nn hm
      refine ⟨hT, fun x hx => hx, hG, ⟨nn, rfl, Or.inl ?_⟩⟩
      rw [← h2]
      exact hT q hq
  · rw [show partASym g.terminals st s = (st.1, st.2 ++ [s]) by
      unfold partASym
      rw [if_neg hst]]
    exact ⟨hT, fun x hx => hx, hG, ⟨s, rfl, Or.inr ⟨rfl, hst⟩⟩⟩

lemma partASyms_fold (g : Grammar) : ∀ (rule : Rule) (st : StA × Rule),
    (∀ q ∈ st.1.tmap, q.2 ∈ st.1.nts) →
    (∀ p ∈ st.1.np, ∀ r ∈ p.2, midRule g st.1.nts p.1 r) →
    (∀ q ∈ (rule.foldl (partASym g.terminals) st).1.tmap,
      q.2 ∈ (rule.foldl (partASym g.terminals) st).1.nts) ∧
    (∀ x ∈ st.1.nts, x ∈ (rule.foldl (partASym g.terminals) st).1.nts) ∧
    (∀ p ∈ (rule.foldl (partASym g.terminals) st).1.np, ∀ r ∈ p.2,
      midRule g (rule.foldl (partASym g.terminals) st).1.nts p.1 r) ∧
    (rule.foldl (partASym g.terminals) st).2.length = st.2.length + rule.length ∧
    (∀ x ∈ (rule.foldl (partASym g.terminals) st).2,
      x ∈ st.2 ∨ x ∈ (rule.foldl (partASym g.terminals) st).1.nts ∨
        (x ∈ rule ∧ x ∉ g.terminals)) := by
  intro rule
  induction rule with
  | nil =>
      intro st hT hG
      exact ⟨hT, fun x hx => hx, hG, by simp, fun x hx => Or.inl hx⟩
  | cons s rest ih =>
      intro st hT hG
      rw [List.foldl_cons]
      obtain ⟨hT1, hmono1, hG1, ⟨y, hy, hyc⟩⟩ := partASym_spec g st s hT hG
      obtain ⟨hT2, hmono2, hG2, hlen2, hmem2⟩ := ih (partASym g.terminals st s) hT1 hG1
      refine ⟨hT2, fun x hx => hmono2 x (hmono1 x hx), hG2, ?_, ?_⟩
      · rw [hlen2, hy, List.length_append, List.length_singleton, List.length_cons]
        omega
      · intro x hx
        rcases hmem2 x hx with hx' | hx' | ⟨hx', hxt⟩
        · rw [hy] at hx'
          rcases List.mem_append.mp hx' with h | h
          · exact Or.inl h
          · rw [List.mem_singleton] at h
            subst h
            rcases hyc with hc | ⟨rfl, hst⟩
            · exact Or.inr (Or.inl (hmono2 x hc))
            · exact Or.inr (Or.inr ⟨List.mem_cons_self _ _, hst⟩)
        · exact Or.inr (Or.inl hx')
        · exact Or.inr (Or.inr ⟨List.mem_cons_of_mem _ hx', hxt⟩)

lemma partARule_spec (g : Grammar) (key : Symb) (st : StA × List Rule) (r0 : Rule)
    (hT : ∀ q ∈ st.1.tmap, q.2 ∈ st.1.nts)
    (hN : ∀ x ∈ g.non_terminals, x ∈ st.1.nts)
    (hG : ∀ p ∈ st.1.np, ∀ r ∈ p.2, midRule g st.1.nts p.1 r)
    (hr0 : (∀ s ∈ r0, s ∈ g.non_terminals ∨ s ∈ g.terminals) ∨
      (r0 = ["ε"] ∧ key = g.start_symbol))
    (hne : r0 ≠ []) (hnu : ¬ isUnitRule g r0) :
    (∀ q ∈ (partARule g.terminals st r0).1.tmap, q.2 ∈ (partARule g.terminals st r0).1.nts) ∧
    (∀ x ∈ st.1.nts, x ∈ (partARule g.terminals st r0).1.nts) ∧
    (∀ x ∈ g.non_terminals, x ∈ (partARule g.terminals st r0).1.nts) ∧
    (∀ p ∈ (partARule g.terminals st r0).1.np, ∀ r ∈ p.2,
      midRule g (partARule g.terminals st r0).1.nts p.1 r) ∧
    (∃ rc, (partARule g.terminals st r0).2 = st.2 ++ [rc] ∧
      midRule g (partARule g.terminals st r0).1.nts key rc) := by
  by_cases hlen : 2 ≤ r0.length
  · rw [show partARule g.terminals st r0 =
        ((r0.foldl (partASym g.terminals) (st.1, [])).1,
          st.2 ++ [(r0.foldl (partASym g.terminals) (st.1, [])).2]) by
      unfold partARule
      rw [if_pos hlen]]
    obtain ⟨hT2, hmono2, hG2, hlen2, hmem2⟩ :=
      partASyms_fold g r0 (st.1, ([] : Rule)) hT hG
    refine ⟨hT2, hmono2, fun x hx => hmono2 x (hN x hx), hG2, ?_⟩
    refine ⟨_, rfl, Or.inr (Or.inr ⟨?_, ?_⟩)⟩
    · rw [hlen2]
      simpa using hlen
    · intro x hx
      rcases hmem2 x hx with hx' | hx' | ⟨hx', hxt⟩
      · simp at hx'
      · exact hx'
      · rcases hr0 with hwf | ⟨heps, _⟩
        · rcases hwf x hx' with h | h
          · exact hmono2 x (hN x h)
          · exact absurd h hxt
        · rw [heps] at hlen
          simp at hlen
  · rw [show partARule g.terminals st r0 = (st.1, st.2 ++ [r0]) by
      unfold partARule
      rw [if_neg hlen]]
    refine ⟨hT, fun x hx => hx, hN, hG, ⟨r0, rfl, ?_⟩⟩
    rcases hr0 with hwf | ⟨heps, hkey⟩
    · match r0, hne with
      | [x], _ =>
          rcases hwf x (List.mem_singleton_self x) with h | h
          · exact absurd (show isUnitRule g [x] from h) hnu
          · exact Or.inl ⟨x, h, rfl⟩
      | x :: y :: r', _ =>
          exfalso
          apply hlen
          simp [List.length_cons]
    · exact Or.inr (Or.inl ⟨heps, hkey⟩)

lemma partARules_fold (g : Grammar) (key : Symb) :
    ∀ (rules : List Rule) (st : StA × List Rule),
    (∀ q ∈ st.1.tmap, q.2 ∈ st.1.nts) →
    (∀ x ∈ g.non_terminals, x ∈ st.1.nts) →
    (∀ p ∈ st.1.np, ∀ r ∈ p.2, midRule g st.1.nts p.1 r) →
    (∀ r0 ∈ rules, ((∀ s ∈ r0, s ∈ g.non_terminals ∨ s ∈ g.terminals) ∨
      (r0 = ["ε"] ∧ key = g.start_symbol)) ∧ r0 ≠ [] ∧ ¬ isUnitRule g r0) →
    (∀ r ∈ st.2, midRule g st.1.nts key r) →
    (∀ q ∈ (rules.foldl (partARule g.terminals) st).1.tmap,
      q.2 ∈ (rules.foldl (partARule g.terminals) st).1.nts) ∧
    (∀ x ∈ st.1.nts, x ∈ (rules.foldl (partARule g.terminals) st).1.nts) ∧
    (∀ x ∈ g.non_terminals, x ∈ (rules.foldl (partARule g.terminals) st).1.nts) ∧
    (∀ p ∈ (rules.foldl (partARule g.terminals) st).1.np, ∀ r ∈ p.2,
      midRule g (rules.foldl (partARule g.terminals) st).1.nts p.1 r) ∧
    (∀ r ∈ (rules.foldl (partARule g.terminals) st).2,
      midRule g (rules.foldl (partARule g.terminals) st).1.nts key r) := by
  intro rules
  induction rules with
  | nil =>
      intro st hT hN hG _ hrs
      exact ⟨hT, fun x hx => hx, hN, hG, hrs⟩
  | cons r0 rules ih =>
      intro st hT hN hG hall hrs
      rw [List.foldl_cons]
      obtain ⟨h1, h2, h3⟩ := hall r0 (List.mem_cons_self _ _)
      obtain ⟨hT1, hmono1, hN1, hG1, ⟨rc, hrc, hrcm⟩⟩ :=
        partARule_spec g key st r0 hT hN hG h1 h2 h3
      obtain ⟨hT2, hmono2, hN2, hG2, hrs2⟩ := ih (partARule g.terminals st r0) hT1 hN1 hG1
        (fun r hr => hall r (List.mem_cons_of_mem _ hr))
        (by
          intro r hr
          rw [hrc] at hr
          rcases List.mem_append.mp hr with h | h
          · exact midRule_mono hmono1 (hrs r h)
          · rw [List.mem_singleton] at h
            rw [h]
            exact hrcm)
      exact ⟨hT2, fun x hx => hmono2 x (hmono1 x hx), hN2, hG2, hrs2⟩

lemma partAEntry_spec (g : Grammar) (a : StA) (p : Symb × List Rule)
    (hT : ∀ q ∈ a.tmap, q.2 ∈ a.nts)
    (hN : ∀ x ∈ g.non_terminals, x ∈ a.nts)
    (hG : ∀ q ∈ a.np, ∀ r ∈ q.2, midRule g a.nts q.1 r)
    (hall : ∀ r0 ∈ p.2, ((∀ s ∈ r0, s ∈ g.non_terminals ∨ s ∈ g.terminals) ∨
      (r0 = ["ε"] ∧ p.1 = g.start_symbol)) ∧ r0 ≠ [] ∧ ¬ isUnitRule g r0) :
    (∀ q ∈ (partAEntry g.terminals a p).tmap, q.2 ∈ (partAEntry g.terminals a p).nts) ∧
    (∀ x ∈ a.nts, x ∈ (partAEntry g.terminals a p).nts) ∧
    (∀ x ∈ g.non_terminals, x ∈ (partAEntry g.terminals a p).nts) ∧
    (∀ q ∈ (partAEntry g.terminals a p).np, ∀ r ∈ q.2,
      midRule g (partAEntry g.terminals a p).nts q.1 r) := by
  obtain ⟨hT2, hmono2, hN2, hG2, hrs2⟩ :=
    partARules_fold g p.1 p.2 (a, ([] : List Rule)) hT hN hG hall (by simp)
  rw [show partAEntry g.terminals a p =
      { (p.2.foldl (partARule g.terminals) (a, [])).1 with
        np := extendKey (p.2.foldl (partARule g.terminals) (a, [])).1.np p.1
          (p.2.foldl (partARule g.terminals) (a, [])).2 } from rfl]
  refine ⟨hT2, hmono2, hN2, ?_⟩
  intro q hq r hr
  rcases mem_extendKey _ _ _ q hq r hr with ⟨q', hq', h1, h2⟩ | ⟨h1, h2⟩
  · rw [← h1]
    exact hG2 q' hq' r h2
  · rw [h1]
    exact hrs2 r h2

lemma partA_spec (g : Grammar)
    (hwf : ∀ p ∈ g.productions, ∀ r0 ∈ p.2,
      (∀ s ∈ r0, s ∈ g.non_terminals ∨ s ∈ g.terminals) ∨
        (r0 = ["ε"] ∧ p.1 = g.start_symbol))
    (hne : ∀ p ∈ g.productions, ∀ r0 ∈ p.2, r0 ≠ [])
    (hnu : ∀ p ∈ g.productions, ∀ r0 ∈ p.2, ¬ isUnitRule g r0) :
    (∀ x ∈ g.non_terminals, x ∈ (partA g).nts) ∧
    (∀ q ∈ (partA g).np, ∀ r ∈ q.2, midRule g (partA g).nts q.1 r) := by
  unfold partA
  have hgen : ∀ (ps : List (Symb × List Rule)) (a : StA),
      (∀ q ∈ a.tmap, q.2 ∈ a.nts) →
      (∀ x ∈ g.non_terminals, x ∈ a.nts) →
      (∀ q ∈ a.np, ∀ r ∈ q.2, midRule g a.nts q.1 r) →
      (∀ p ∈ ps, ∀ r0 ∈ p.2,
        ((∀ s ∈ r0, s ∈ g.non_terminals ∨ s ∈ g.terminals) ∨
          (r0 = ["ε"] ∧ p.1 = g.start_symbol)) ∧ r0 ≠ [] ∧ ¬ isUnitRule g r0) →
      (∀ x ∈ g.non_terminals, x ∈ (ps.foldl (partAEntry g.terminals) a).nts) ∧
      (∀ q ∈ (ps.foldl (partAEntry g.terminals) a).np, ∀ r ∈ q.2,
        midRule g (ps.foldl (partAEntry g.terminals) a).nts q.1 r) := by
    intro ps
    induction ps with
    | nil => intro a _ hN hG _; exact ⟨hN, hG⟩
    | cons p ps ih =>
        intro a hT hN hG hall
        rw [List.foldl_cons]
        obtain ⟨hT1, _, hN1, hG1⟩ := partAEntry_spec g a p hT hN hG
          (fun r0 hr0 => hall p (List.mem_cons_self _ _) r0 hr0)
        exact ih (partAEntry g.terminals a p) hT1 hN1 hG1
          (fun q hq r0 hr0 => hall q (List.mem_cons_of_mem _ hq) r0 hr0)
  exact hgen g.productions ⟨[], [], g.non_terminals⟩ (by simp) (fun x hx => hx) (by simp)
    (fun p hp r0 hr0 => ⟨hwf p hp r0 hr0, hne p hp r0 hr0, hnu p hp r0 hr0⟩)

lemma binChain_spec (g : Grammar) : ∀ (temp : Rule) (cur : Symb)
    (st : Prods × List Symb × Nat),
    (∀ x ∈ temp, x ∈ st.2.1) → 2 ≤ temp.length →
    (∀ p ∈ st.1, ∀ r ∈ p.2, cnfRule g st.2.1 p.1 r) →
    (∀ x ∈ st.2.1, x ∈ (binChain cur temp st).2.1) ∧
    (∀ p ∈ (binChain cur temp st).1, ∀ r ∈ p.2,
      cnfRule g (binChain cur temp st).2.1 p.1 r) := by
  intro temp
  induction temp with
  | nil => intro cur st _ hlen _; simp at hlen
  | cons a rest ih =>
      intro cur st hmem hlen hG
      obtain ⟨cnf, nts, count⟩ := st
      match rest with
      | [] => simp at hlen
      | [b] =>
          rw [show binChain cur [a, b] (cnf, nts, count) =
            (extendKey cnf cur [[a, b]], nts, count) from rfl]
          refine ⟨fun x hx => hx, ?_⟩
          intro p hp r hr
          rcases mem_extendKey _ _ _ p hp r hr with ⟨q, hq, h1, h2⟩ | ⟨_, h2⟩
          · rw [← h1]
            exact hG q hq r h2
          · rw [List.mem_singleton] at h2
            rw [h2]
            exact Or.inr (Or.inr ⟨a, b, rfl,
              hmem a (List.mem_cons_self _ _),
              hmem b (by simp)⟩)
      | b :: c :: rest' =>
          rw [show binChain cur (a :: b :: c :: rest') (cnf, nts, count) =
            binChain ("X" ++ toString (count + 1)) (b :: c :: rest')
              (extendKey cnf cur [[a, "X" ++ toString (count + 1)]],
               insertS ("X" ++ toString (count + 1)) nts, count + 1) from rfl]
          obtain ⟨hsub, hG'⟩ := ih ("X" ++ toString (count + 1))
            (extendKey cnf cur [[a, "X" ++ toString (count + 1)]],
             insertS ("X" ++ toString (count + 1)) nts, count + 1)
            (by
              intro x hx
              exact mem_insertS_of_mem (hmem x (List.mem_cons_of_mem _ hx)))
            (by simp [List.length_cons])
            (by
              intro p hp r hr
              rcases mem_extendKey _ _ _ p hp r hr with ⟨q, hq, h1, h2⟩ | ⟨_, h2⟩
              · rw [← h1]
                exact cnfRule_mono (fun x hx => mem_insertS_of_mem hx) (hG q hq r h2)
              · rw [List.mem_singleton] at h2
                rw [h2]
                exact Or.inr (Or.inr ⟨a, _, rfl,
                  mem_insertS_of_mem (hmem a (List.mem_cons_self _ _)),
                  self_mem_insertS⟩))
          exact ⟨fun x hx => hsub x (mem_insertS_of_mem hx), hG'⟩

lemma partBRule_spec (g : Grammar) (nts0 : List Symb) (st : Prods × List Symb × Nat)
    (nt : Symb) (r : Rule)
    (hr : midRule g nts0 nt r)
    (hsub : ∀ x ∈ nts0, x ∈ st.2.1)
    (hG : ∀ p ∈ st.1, ∀ r' ∈ p.2, cnfRule g st.2.1 p.1 r') :
    (∀ x ∈ st.2.1, x ∈ (partBRule st nt r).2.1) ∧
    (∀ p ∈ (partBRule st nt r).1, ∀ r' ∈ p.2,
      cnfRule g (partBRule st nt r).2.1 p.1 r') := by
  by_cases hlen : r.length ≤ 2
  · rw [show partBRule st nt r = (extendKey st.1 nt [r], st.2.1, st.2.2) by
      unfold partBRule
      rw [if_pos hlen]]
    refine ⟨fun x hx => hx, ?_⟩
    intro p hp r' hr'
    rcases mem_extendKey _ _ _ p hp r' hr' with ⟨q, hq, h1, h2⟩ | ⟨h1, h2⟩
    · rw [← h1]
      exact hG q hq r' h2
    · rw [List.mem_singleton] at h2
      subst h2
      rcases hr with h | h | ⟨h1', h2'⟩
      · exact Or.inl h
      · rw [h1]
        exact Or.inr (Or.inl h)
      · have hlen2 : r'.length = 2 := le_antisymm hlen h1'
        rcases r' with _ | ⟨u, _ | ⟨v, _ | ⟨w, rr⟩⟩⟩
        · simp at hlen2
        · simp at hlen2
        · exact Or.inr (Or.inr ⟨u, v, rfl,
            hsub u (h2' u (List.mem_cons_self _ _)),
            hsub v (h2' v (by simp))⟩)
        · simp at hlen2
  · match r, hlen with
    | x :: tail, hlen =>
        rw [show partBRule st nt (x :: tail) =
          binChain ("X" ++ toString (st.2.2 + 1)) tail
            (extendKey st.1 nt [[x, "X" ++ toString (st.2.2 + 1)]],
             insertS ("X" ++ toString (st.2.2 + 1)) st.2.1, st.2.2 + 1) by
          unfold partBRule
          rw [if_neg hlen]]
        have hsyms : ∀ s ∈ x :: tail, s ∈ nts0 := by
          rcases hr with ⟨t, _, heq⟩ | ⟨heq, _⟩ | ⟨_, h2'⟩
          · rw [heq] at hlen
            simp at hlen
          · rw [heq] at hlen
            simp at hlen
          · exact h2'
        obtain ⟨hsub2, hG2⟩ := binChain_spec g tail ("X" ++ toString (st.2.2 + 1))
          (extendKey st.1 nt [[x, "X" ++ toString (st.2.2 + 1)]],
           insertS ("X" ++ toString (st.2.2 + 1)) st.2.1, st.2.2 + 1)
          (by
            intro s hs
            exact mem_insertS_of_mem (hsub s (hsyms s (List.mem_cons_of_mem _ hs))))
          (by
            simp only [List.length_cons, not_le] at hlen
            omega)
          (by
            intro p hp r' hr'
            rcases mem_extendKey _ _ _ p hp r' hr' with ⟨q, hq, h1, h2⟩ | ⟨_, h2⟩
            · rw [← h1]
              exact cnfRule_mono (fun y hy => mem_insertS_of_mem hy) (hG q hq r' h2)
            · rw [List.mem_singleton] at h2
              rw [h2]
              exact Or.inr (Or.inr ⟨x, _, rfl,
                mem_insertS_of_mem (hsub x (hsyms x (List.mem_cons_self _ _))),
                self_mem_insertS⟩))
        exact ⟨fun y hy => hsub2 y (mem_insertS_of_mem hy), hG2⟩

lemma partB_spec (g : Grammar) (nts0 : List Symb) (ps : Prods)
    (hps : ∀ p ∈ ps, ∀ r ∈ p.2, midRule g nts0 p.1 r) :
    (∀ x ∈ nts0, x ∈ (partB ps nts0).2.1) ∧
    (∀ p ∈ (partB ps nts0).1, ∀ r ∈ p.2, cnfRule g (partB ps nts0).2.1 p.1 r) := by
  unfold partB
  have hinner : ∀ (nt : Symb) (rules : List Rule) (st : Prods × List Symb × Nat),
      (∀ r ∈ rules, midRule g nts0 nt r) →
      (∀ x ∈ nts0, x ∈ st.2.1) →
      (∀ p ∈ st.1, ∀ r' ∈ p.2, cnfRule g st.2.1 p.1 r') →
      (∀ x ∈ st.2.1, x ∈ (rules.foldl (fun st2 r => partBRule st2 nt r) st).2.1) ∧
      (∀ x ∈ nts0, x ∈ (rules.foldl (fun st2 r => partBRule st2 nt r) st).2.1) ∧
      (∀ p ∈ (rules.foldl (fun st2 r => partBRule st2 nt r) st).1, ∀ r' ∈ p.2,
        cnfRule g (rules.foldl (fun st2 r => partBRule st2 nt r) st).2.1 p.1 r') := by
    intro nt rules
    induction rules with
    | nil => intro st _ hsub hG; exact ⟨fun x hx => hx, hsub, hG⟩
    | cons r rules ih =>
        intro st hall hsub hG
        rw [List.foldl_cons]
        obtain ⟨hs1, hG1⟩ := partBRule_spec g nts0 st nt r
          (hall r (List.mem_cons_self _ _)) hsub hG
        obtain ⟨hs2, hsub2, hG2⟩ := ih (partBRule st nt r)
          (fun r' hr' => hall r' (List.mem_cons_of_mem _ hr'))
          (fun x hx => hs1 x (hsub x hx)) hG1
        exact ⟨fun x hx => hs2 x (hs1 x hx), hsub2, hG2⟩
  have houter : ∀ (l : Prods) (st : Prods × List Symb × Nat),
      (∀ p ∈ l, ∀ r ∈ p.2, midRule g nts0 p.1 r) →
      (∀ x ∈ nts0, x ∈ st.2.1) →
      (∀ p ∈ st.1, ∀ r' ∈ p.2, cnfRule g st.2.1 p.1 r') →
      (∀ x ∈ nts0,
        x ∈ (l.foldl (fun st p => p.2.foldl (fun st2 r => partBRule st2 p.1 r) st) st).2.1) ∧
      (∀ p ∈ (l.foldl (fun st p => p.2.foldl (fun st2 r => partBRule st2 p.1 r) st) st).1,
        ∀ r' ∈ p.2,
        cnfRule g
          (l.foldl (fun st p => p.2.foldl (fun st2 r => partBRule st2 p.1 r) st) st).2.1
          p.1 r') := by
    intro l
    induction l with
    | nil => intro st _ hsub hG; exact ⟨hsub, hG⟩
    | cons p l ih =>
        intro st hall hsub hG
        rw [List.foldl_cons]
        obtain ⟨_, hsub1, hG1⟩ := hinner p.1 p.2 st
          (fun r hr => hall p (List.mem_cons_self _ _) r hr) hsub hG
        exact ih _ (fun q hq r hr => hall q (List.mem_cons_of_mem _ hq) r hr) hsub1 hG1
  exact houter ps ([], nts0, 0) hps (fun x hx => hx) (by simp)

/-- C3: on input satisfying the postconditions of the earlier stages
(well-formed RHS symbols with ε only as the start symbol's whole rule, no
empty rule, no unit production), every production of `convert_to_cnf` is
a single terminal, or exactly two non-terminals of the output grammar, or
the carried-over ε-production on the start symbol. -/
theorem cnf_shape (g : Grammar)
    (hwf : ∀ p ∈ g.productions, ∀ r0 ∈ p.2,
      (∀ s ∈ r0, s ∈ g.non_terminals ∨ s ∈ g.terminals) ∨
        (r0 = ["ε"] ∧ p.1 = g.start_symbol))
    (hne : ∀ p ∈ g.productions, ∀ r0 ∈ p.2, r0 ≠ [])
    (hnu : ∀ p ∈ g.productions, ∀ r0 ∈ p.2, ¬ isUnitRule g r0) :
    ∀ p ∈ (convert_to_cnf g).productions, ∀ r ∈ p.2,
      (∃ t ∈ g.terminals, r = [t]) ∨
      (r = ["ε"] ∧ p.1 = g.start_symbol) ∨
      (∃ u v, r = [u, v] ∧ u ∈ (convert_to_cnf g).non_terminals ∧
        v ∈ (convert_to_cnf g).non_terminals) := by
  obtain ⟨_, hGood⟩ := partA_spec g hwf hne hnu
  obtain ⟨_, hFinal⟩ := partB_spec g (partA g).nts (partA g).np hGood
  intro p hp r hr
  exact hFinal p hp r hr

/-- Witness for C3 at the concrete grammar `gW`. -/
theorem cnf_shape_witness :
    ((∀ p ∈ gW.productions, ∀ r0 ∈ p.2,
      (∀ s ∈ r0, s ∈ gW.non_terminals ∨ s ∈ gW.terminals) ∨
        (r0 = ["ε"] ∧ p.1 = gW.start_symbol)) ∧
     (∀ p ∈ gW.productions, ∀ r0 ∈ p.2, r0 ≠ []) ∧
     (∀ p ∈ gW.productions, ∀ r0 ∈ p.2, ¬ isUnitRule gW r0)) ∧
    (∀ p ∈ (convert_to_cnf gW).productions, ∀ r ∈ p.2,
      (∃ t ∈ gW.terminals, r = [t]) ∨
      (r = ["ε"] ∧ p.1 = gW.start_symbol) ∨
      (∃ u v, r = [u, v] ∧ u ∈ (convert_to_cnf gW).non_terminals ∧
        v ∈ (convert_to_cnf gW).non_terminals)) :=
  ⟨⟨by decide, by decide, by decide⟩, cnf_shape gW (by decide) (by decide) (by decide)⟩

/- ------------------------------------------------------------------ -/
/- C9: structural facts about the CNF output.                         -/
/- ------------------------------------------------------------------ -/

lemma extendKey_values_ne {m : Prods} {k : Symb} {rs : List Rule}
    (hm : ∀ p ∈ m, p.2 ≠ []) (hrs : rs ≠ []) : ∀ p ∈ extendKey m k rs, p.2 ≠ [] := by
  induction m with
  | nil =>
      intro p hp
      rw [extendKey, List.mem_singleton] at hp
      rw [hp]
      exact hrs
  | cons q m ih =>
      intro p hp
      rw [extendKey] at hp
      by_cases hq : q.1 = k
      · rw [if_pos hq] at hp
        rcases List.mem_cons.mp hp with rfl | hp'
        · intro hcon
          exact hrs (List.append_eq_nil.mp hcon).2
        · exact hm p (List.mem_cons_of_mem _ hp')
      · rw [if_neg hq] at hp
        rcases List.mem_cons.mp hp with rfl | hp'
        · exact hm p (List.mem_cons_self _ _)
        · exact ih (fun p' hp' => hm p' (List.mem_cons_of_mem _ hp')) p hp'

lemma extendKey_values_short {m : Prods} {k : Symb} {rs : List Rule} {n : Nat}
    (hm : ∀ p ∈ m, ∀ r ∈ p.2, r.length ≤ n) (hrs : ∀ r ∈ rs, r.length ≤ n) :
    ∀ p ∈ extendKey m k rs, ∀ r ∈ p.2, r.length ≤ n := by
  intro p hp r hr
  rcases mem_extendKey m k rs p hp r hr with ⟨q, hq, _, h2⟩ | ⟨_, h2⟩
  · exact hm q hq r h2
  · exact hrs r h2

lemma binChain_struct : ∀ (temp : Rule) (cur : Symb) (st : Prods × List Symb × Nat),
    ((∀ p ∈ st.1, ∀ r ∈ p.2, r.length ≤ 2) →
      ∀ p ∈ (binChain cur temp st).1, ∀ r ∈ p.2, r.length ≤ 2) ∧
    ((∀ p ∈ st.1, p.2 ≠ []) → ∀ p ∈ (binChain cur temp st).1, p.2 ≠ []) ∧
    ((st.1.map Prod.fst).Nodup → (((binChain cur temp st).1).map Prod.fst).Nodup) := by
  intro temp
  induction temp with
  | nil =>
      intro cur st
      obtain ⟨cnf, nts, count⟩ := st
      rw [show binChain cur [] (cnf, nts, count) = (extendKey cnf cur [[]], nts, count)
        from rfl]
      exact ⟨fun h => extendKey_values_short h (by simp),
        fun h => extendKey_values_ne h (by simp),
        fun h => nodup_keys_extendKey h⟩
  | cons a rest ih =>
      intro cur st
      obtain ⟨cnf, nts, count⟩ := st
      match rest with
      | [] =>
          rw [show binChain cur [a] (cnf, nts, count) = (extendKey cnf cur [[a]], nts, count)
            from rfl]
          exact ⟨fun h => extendKey_values_short h (by simp),
            fun h => extendKey_values_ne h (by simp),
            fun h => nodup_keys_extendKey h⟩
      | [b] =>
          rw [show binChain cur [a, b] (cnf, nts, count) =
            (extendKey cnf cur [[a, b]], nts, count) from rfl]
          exact ⟨fun h => extendKey_values_short h (by simp),
            fun h => extendKey_values_ne h (by simp),
            fun h => nodup_keys_extendKey h⟩
      | b :: c :: rest' =>
          rw [show binChain cur (a :: b :: c :: rest') (cnf, nts, count) =
            binChain ("X" ++ toString (count + 1)) (b :: c :: rest')
              (extendKey cnf cur [[a, "X" ++ toString (count + 1)]],
               insertS ("X" ++ toString (count + 1)) nts, count + 1) from rfl]
          obtain ⟨ih1, ih2, ih3⟩ := ih ("X" ++ toString (count + 1))
            (extendKey cnf cur [[a, "X" ++ toString (count + 1)]],
             insertS ("X" ++ toString (count + 1)) nts, count + 1)
          exact ⟨fun h => ih1 (extendKey_values_short h (by simp)),
            fun h => ih2 (extendKey_values_ne h (by simp)),
            fun h => ih3 (nodup_keys_extendKey h)⟩

lemma partBRule_struct (st : Prods × List Symb × Nat) (nt : Symb) (r : Rule) :
    ((∀ p ∈ st.1, ∀ r' ∈ p.2, r'.length ≤ 2) →
      ∀ p ∈ (partBRule st nt r).1, ∀ r' ∈ p.2, r'.length ≤ 2) ∧
    ((∀ p ∈ st.1, p.2 ≠ []) → ∀ p ∈ (partBRule st nt r).1, p.2 ≠ []) ∧
    ((st.1.map Prod.fst).Nodup → (((partBRule st nt r).1).map Prod.fst).Nodup) := by
  by_cases hlen : r.length ≤ 2
  · rw [show partBRule st nt r = (extendKey st.1 nt [r], st.2.1, st.2.2) by
      unfold partBRule
      rw [if_pos hlen]]
    exact ⟨fun h => extendKey_values_short h (by simpa using hlen),
      fun h => extendKey_values_ne h (by simp),
      fun h => nodup_keys_extendKey h⟩
  · match r, hlen with
    | x :: tail, hlen =>
        rw [show partBRule st nt (x :: tail) =
          binChain ("X" ++ toString (st.2.2 + 1)) tail
            (extendKey st.1 nt [[x, "X" ++ toString (st.2.2 + 1)]],
             insertS ("X" ++ toString (st.2.2 + 1)) st.2.1, st.2.2 + 1) by
          unfold partBRule
          rw [if_neg hlen]]
        obtain ⟨ih1, ih2, ih3⟩ := binChain_struct tail ("X" ++ toString (st.2.2 + 1))
          (extendKey st.1 nt [[x, "X" ++ toString (st.2.2 + 1)]],
           insertS ("X" ++ toString (st.2.2 + 1)) st.2.1, st.2.2 + 1)
        exact ⟨fun h => ih1 (extendKey_values_short h (by simp)),
          fun h => ih2 (extendKey_values_ne h (by simp)),
          fun h => ih3 (nodup_keys_extendKey h)⟩

lemma partB_struct (ps : Prods) (nts0 : List Symb) :
    (∀ p ∈ (partB ps nts0).1, ∀ r ∈ p.2, r.length ≤ 2) ∧
    (∀ p ∈ (partB ps nts0).1, p.2 ≠ []) ∧
    (((partB ps nts0).1.map Prod.fst).Nodup) := by
  unfold partB
  have hgen : ∀ (l : Prods) (st : Prods × List Symb × Nat),
      (∀ p ∈ st.1, ∀ r ∈ p.2, r.length ≤ 2) → (∀ p ∈ st.1, p.2 ≠ []) →
      ((st.1.map Prod.fst).Nodup) →
      (∀ p ∈ (l.foldl (fun st p => p.2.foldl (fun st2 r => partBRule st2 p.1 r) st) st).1,
        ∀ r ∈ p.2, r.length ≤ 2) ∧
      (∀ p ∈ (l.foldl (fun st p => p.2.foldl (fun st2 r => partBRule st2 p.1 r) st) st).1,
        p.2 ≠ []) ∧
      (((l.foldl (fun st p => p.2.foldl (fun st2 r => partBRule st2 p.1 r) st) st).1.map
        Prod.fst).Nodup) := by
    intro l
    induction l with
    | nil => intro st h1 h2 h3; exact ⟨h1, h2, h3⟩
    | cons p l ih =>
        intro st h1 h2 h3
        rw [List.foldl_cons]
        have hinner : ∀ (rules : List Rule) (st' : Prods × List Symb × Nat),
            (∀ q ∈ st'.1, ∀ r ∈ q.2, r.length ≤ 2) → (∀ q ∈ st'.1, q.2 ≠ []) →
            ((st'.1.map Prod.fst).Nodup) →
            (∀ q ∈ (rules.foldl (fun st2 r => partBRule st2 p.1 r) st').1,
              ∀ r ∈ q.2, r.length ≤ 2) ∧
            (∀ q ∈ (rules.foldl (fun st2 r => partBRule st2 p.1 r) st').1, q.2 ≠ []) ∧
            (((rules.foldl (fun st2 r => partBRule st2 p.1 r) st').1.map Prod.fst).Nodup) := by
          intro rules
          induction rules with
          | nil => intro st' k1 k2 k3; exact ⟨k1, k2, k3⟩
          | cons r rules ihr =>
              intro st' k1 k2 k3
              rw [List.foldl_cons]
              obtain ⟨m1, m2, m3⟩ := partBRule_struct st' p.1 r
              exact ihr (partBRule st' p.1 r) (m1 k1) (m2 k2) (m3 k3)
        obtain ⟨n1, n2, n3⟩ := hinner p.2 st h1 h2 h3
        exact ih _ n1 n2 n3
  exact hgen ps ([], nts0, 0) (by simp) (by simp) (by simp)

lemma partASyms_id (terms : List Symb) : ∀ (rule : Rule) (a : StA) (acc : Rule),
    (∀ s ∈ rule, s ∉ terms) → rule.foldl (partASym terms) (a, acc) = (a, acc ++ rule) := by
  intro rule
  induction rule with
  | nil => intro a acc _; simp
  | cons s rest ih =>
      intro a acc h
      rw [List.foldl_cons, show partASym terms (a, acc) s = (a, acc ++ [s]) by
        unfold partASym
        rw [if_neg (h s (List.mem_cons_self _ _))],
        ih a (acc ++ [s]) (fun x hx => h x (List.mem_cons_of_mem _ hx)),
        List.append_assoc, List.singleton_append]

lemma partARule_id (terms : List Symb) (a : StA) (rs : List Rule) (r : Rule)
    (h : 2 ≤ r.length → ∀ s ∈ r, s ∉ terms) :
    partARule terms (a, rs) r = (a, rs ++ [r]) := by
  by_cases hlen : 2 ≤ r.length
  · unfold partARule
    rw [if_pos hlen, show ((a, rs) : StA × List Rule).1 = a from rfl,
      partASyms_id terms r a [] (h hlen), List.nil_append]
  · unfold partARule
    rw [if_neg hlen]

lemma partAEntry_id (terms : List Symb) (a : StA) (p : Symb × List Rule)
    (h : ∀ r ∈ p.2, 2 ≤ r.length → ∀ s ∈ r, s ∉ terms) :
    partAEntry terms a p = { a with np := extendKey a.np p.1 p.2 } := by
  have hfold : ∀ (rules : List Rule) (rs0 : List Rule),
      (∀ r ∈ rules, 2 ≤ r.length → ∀ s ∈ r, s ∉ terms) →
      rules.foldl (partARule terms) (a, rs0) = (a, rs0 ++ rules) := by
    intro rules
    induction rules with
    | nil => intro rs0 _; simp
    | cons r rules ih =>
        intro rs0 hall
        rw [List.foldl_cons, partARule_id terms a rs0 r (hall r (List.mem_cons_self _ _)),
          ih (rs0 ++ [r]) (fun x hx => hall x (List.mem_cons_of_mem _ hx)),
          List.append_assoc, List.singleton_append]
  unfold partAEntry
  rw [hfold p.2 [] h, List.nil_append]

lemma partA_id (g' : Grammar)
    (h : ∀ p ∈ g'.productions, ∀ r ∈ p.2, 2 ≤ r.length → ∀ s ∈ r, s ∉ g'.terminals)
    (hkeys : (g'.productions.map Prod.fst).Nodup) :
    partA g' = ⟨[], g'.productions, g'.non_terminals⟩ := by
  unfold partA
  have hfold : ∀ (l : Prods) (a : StA),
      (∀ p ∈ l, ∀ r ∈ p.2, 2 ≤ r.length → ∀ s ∈ r, s ∉ g'.terminals) →
      l.foldl (partAEntry g'.terminals) a =
        { a with np := l.foldl (fun acc p => extendKey acc p.1 p.2) a.np } := by
    intro l
    induction l with
    | nil => intro a _; rfl
    | cons p l ih =>
        intro a hall
        rw [List.foldl_cons, partAEntry_id g'.terminals a p
          (fun r hr => hall p (List.mem_cons_self _ _) r hr),
          ih _ (fun q hq r hr => hall q (List.mem_cons_of_mem _ hq) r hr)]
        rfl
  rw [hfold g'.productions ⟨[], [], g'.non_terminals⟩ h]
  have hre := foldl_extendKey_rebuild g'.productions [] (by simpa using hkeys)
  rw [show (⟨[], [], g'.non_terminals⟩ : StA).np = ([] : Prods) from rfl] at *
  rw [hre]
  rfl

lemma partBRules_id (nt : Symb) : ∀ (rules : List Rule) (st : Prods × List Symb × Nat),
    (∀ r ∈ rules, r.length ≤ 2) →
    rules.foldl (fun st2 r => partBRule st2 nt r) st =
      (rules.foldl (fun c r => extendKey c nt [r]) st.1, st.2.1, st.2.2) := by
  intro rules
  induction rules with
  | nil => intro st _; rfl
  | cons r rules ih =>
      intro st hall
      rw [List.foldl_cons, List.foldl_cons,
        show partBRule st nt r = (extendKey st.1 nt [r], st.2.1, st.2.2) by
          unfold partBRule
          rw [if_pos (hall r (List.mem_cons_self _ _))],
        ih _ (fun x hx => hall x (List.mem_cons_of_mem _ hx))]

lemma partB_id (ps : Prods) (nts0 : List Symb)
    (hshort : ∀ p ∈ ps, ∀ r ∈ p.2, r.length ≤ 2)
    (hnev : ∀ p ∈ ps, p.2 ≠ [])
    (hkeys : (ps.map Prod.fst).Nodup) :
    partB ps nts0 = (ps, nts0, 0) := by
  unfold partB
  have hfold : ∀ (l : Prods) (st : Prods × List Symb × Nat),
      (∀ p ∈ l, ∀ r ∈ p.2, r.length ≤ 2) → (∀ p ∈ l, p.2 ≠ []) →
      l.foldl (fun st p => p.2.foldl (fun st2 r => partBRule st2 p.1 r) st) st =
        (l.foldl (fun acc p => extendKey acc p.1 p.2) st.1, st.2.1, st.2.2) := by
    intro l
    induction l with
    | nil => intro st _ _; rfl
    | cons p l ih =>
        intro st hall hne
        rw [List.foldl_cons, List.foldl_cons,
          partBRules_id p.1 p.2 st (fun r hr => hall p (List.mem_cons_self _ _) r hr)]
        have hsingle : p.2.foldl (fun c r => extendKey c p.1 [r]) st.1 =
            extendKey st.1 p.1 p.2 := by
          rcases hp2 : p.2 with _ | ⟨r, rest⟩
          · exact absurd hp2 (hne p (List.mem_cons_self _ _))
          · rw [List.foldl_cons]
            have hx := foldl_extendKey_single p.1 rest st.1 [r]
            rw [List.singleton_append] at hx
            exact hx
        rw [hsingle,
          ih (extendKey st.1 p.1 p.2, st.2.1, st.2.2)
            (fun q hq r hr => hall q (List.mem_cons_of_mem _ hq) r hr)
            (fun q hq => hne q (List.mem_cons_of_mem _ hq))]
  rw [hfold ps ([], nts0, 0) hshort hnev]
  have hre := foldl_extendKey_rebuild ps [] (by simpa using hkeys)
  rw [show (([], nts0, 0) : Prods × List Symb × Nat).1 = ([] : Prods) from rfl] at *
  rw [hre]
  rfl

/-- C9 amended: `convert_to_cnf` is idempotent provided no length-≥2 rule
of its output contains a terminal symbol (in particular whenever no
terminal name collides with a generated `X<i>` or `T_` non-terminal
name); without that proviso it is not idempotent (see the counterexample
with a terminal named X1). -/
theorem cnf_idempotent (g : Grammar)
    (H : ∀ p ∈ (convert_to_cnf g).productions, ∀ r ∈ p.2,
      2 ≤ r.length → ∀ s ∈ r, s ∉ g.terminals) :
    convert_to_cnf (convert_to_cnf g) = convert_to_cnf g := by
  obtain ⟨hshort, hnev, hkeys⟩ := partB_struct (partA g).np (partA g).nts
  have hA : partA (convert_to_cnf g) =
      ⟨[], (convert_to_cnf g).productions, (convert_to_cnf g).non_terminals⟩ :=
    partA_id (convert_to_cnf g) H hkeys
  have h2 : partB (partA (convert_to_cnf g)).np (partA (convert_to_cnf g)).nts =
      ((convert_to_cnf g).productions, (convert_to_cnf g).non_terminals, 0) := by
    rw [hA]
    exact partB_id (convert_to_cnf g).productions (convert_to_cnf g).non_terminals
      hshort hnev hkeys
  have h3 : convert_to_cnf (convert_to_cnf g) =
      ⟨(partB (partA (convert_to_cnf g)).np (partA (convert_to_cnf g)).nts).2.1,
       (convert_to_cnf g).terminals,
       (partB (partA (convert_to_cnf g)).np (partA (convert_to_cnf g)).nts).1,
       (convert_to_cnf g).start_symbol⟩ := rfl
  rw [h3, h2]

/-- Witness for the amended C9 at the concrete grammar `gW`. -/
theorem cnf_idempotent_witness :
    (∀ p ∈ (convert_to_cnf gW).productions, ∀ r ∈ p.2,
      2 ≤ r.length → ∀ s ∈ r, s ∉ gW.terminals) ∧
    convert_to_cnf (convert_to_cnf gW) = convert_to_cnf gW :=
  ⟨by decide, cnf_idempotent gW (by decide)⟩
